import Mathlib

/-!
Verification development for the TF-IDF retrieval engine of
`src/backend/rag_engine.py` (classes `OptimizedTFIDF` and
`FastSimpleRAGEngine`).

Modelling conventions:

* Python floats are idealised as exact rationals (`ℚ`).  The two
  transcendental library functions that appear in the source,
  `math.sqrt` and `math.log`, are taken as parameters
  (`rsqrt rlog : ℚ → ℚ`) of every definition that uses them; theorems
  quantify over them and closed examples instantiate them with the
  computable rational surrogates `ratSqrt` (exact on perfect squares)
  and `ratLog` (the tangent line of `log` at 1: monotone, zero at 1,
  exact there).

* `ℚ`'s arithmetic operations in Lean core are `@[irreducible]`, which
  blocks kernel evaluation of concrete examples.  We therefore package
  the field operations of `ℚ` as kernel-computable functions
  `qadd/qmul/qdiv/qlt/qle` built from `Rat.divInt` and the `num`/`den`
  projections, and prove once and for all that they agree with
  `+ * / < ≤` on `ℚ` (`qadd_eq` …).  All abstract reasoning rewrites
  through these bridges.

* Python strings are Lean `String`s; where the source manipulates text
  positionally the model works on the underlying `List Char`.
  `str.lower`, `\w`, `[a-z]`, `\s` and `str.strip` are modelled for the
  ASCII range (the repository's data and all concrete examples are
  ASCII).

* Python dicts are modelled as association lists in insertion order
  (Python ≥ 3.7 dicts preserve insertion order, which the source's
  FIFO cache pruning relies on).  `md5` cache keys are modelled by the
  hashed text itself (md5 is treated as injective).
-/

/-! ### Kernel-computable rational arithmetic (bridged to ℚ's field ops) -/

def qadd (a b : ℚ) : ℚ := Rat.divInt (a.num * b.den + b.num * a.den) (a.den * b.den)

def qmul (a b : ℚ) : ℚ := Rat.divInt (a.num * b.num) (a.den * b.den)

def qdiv (a b : ℚ) : ℚ := Rat.divInt (a.num * b.den) (a.den * b.num)

def qlt (a b : ℚ) : Bool := a.num * b.den < b.num * a.den

def qle (a b : ℚ) : Bool := a.num * b.den ≤ b.num * a.den

/-- Kernel-computable left-fold sum, modelling Python's `sum(...)`. -/
def qsum (l : List ℚ) : ℚ := l.foldl qadd 0

/-- `sum(x * x for x in v)` as it appears in norm computations. -/
def sumSq (v : List ℚ) : ℚ := v.foldl (fun a x => qadd a (qmul x x)) 0

/-- `sum(a * b for a, b in zip(u, v))`, the dot product of the source. -/
def dotProd (u v : List ℚ) : ℚ := (List.zip u v).foldl (fun a p => qadd a (qmul p.1 p.2)) 0

/-! ### Rational surrogates for `math.sqrt` and `math.log`

`natSqrt` is the integer square root (largest `k` with `k*k ≤ n`),
defined by a structurally recursive downward search so that the kernel
can evaluate it.  `ratSqrt` is exact precisely on rationals whose
numerator and denominator are perfect squares, which is the case in
every concrete example below.  `ratLog` is a strictly monotone rational
stand-in for `math.log` with `ratLog 1 = 0`; no theorem depends on its
other values. -/

def natSqrtGo : Nat → Nat → Nat
  | 0, _ => 0
  | k + 1, n => if (k + 1) * (k + 1) ≤ n then k + 1 else natSqrtGo k n

def natSqrt (n : Nat) : Nat := natSqrtGo n n

def ratSqrt (q : ℚ) : ℚ := Rat.divInt (natSqrt q.num.toNat) (natSqrt q.den)

def ratLog (q : ℚ) : ℚ := Rat.divInt (q.num - q.den) q.den

/-! ### ASCII character classes

`isWordChar` models `\w` of Python's `re` (letters, digits, underscore)
on the ASCII range, `isLowerAlpha` models `[a-z]`, `isSpaceChar` models
`\s` and the default `str.strip` character set, and `lowerChar` models
`str.lower`. -/

def isWordChar (c : Char) : Bool :=
  (('a' ≤ c) && (c ≤ 'z')) || (('A' ≤ c) && (c ≤ 'Z')) || (('0' ≤ c) && (c ≤ '9')) || (c = '_')

def isLowerAlpha (c : Char) : Bool := ('a' ≤ c) && (c ≤ 'z')

def isSpaceChar (c : Char) : Bool :=
  (c = ' ') || (c = '\t') || (c = '\n') || (c = '\r') || (c.toNat = 11) || (c.toNat = 12)

def lowerChar (c : Char) : Char :=
  if ('A' ≤ c) && (c ≤ 'Z') then Char.ofNat (c.toNat + 32) else c

/-! ### The tokenizer

`OptimizedTFIDF.tokenize` is
`tuple(re.findall(r'\b[a-z]{2,}\b', text.lower()))`.
The scanner below is an operational model of `re.findall` specialised
to this pattern: it walks the text left to right; at each position it
checks the word boundary `\b` (the word-char status of the previous
character differs from that of the current one), takes the maximal
greedy run of `[a-z]` and backtracks its length downward until the
trailing `\b` holds, exactly as the backtracking engine does; on a
match it emits the token and resumes after it (matches do not overlap),
otherwise it advances one character. -/

/-- The trailing `\b` of the pattern holds after `j` characters of `l`:
either the text ends there or the next character is not a word
character. -/
def boundaryAfter (l : List Char) (j : Nat) : Bool :=
  match l.drop j with
  | [] => true
  | c :: _ => !(isWordChar c)

/-- Backtracking for `[a-z]{2,}\b`: try match lengths `k, k-1, …, 2`. -/
def tryMatch (l : List Char) : Nat → Option Nat
  | 0 => none
  | 1 => none
  | (k + 2) => if boundaryAfter l (k + 2) then some (k + 2) else tryMatch l (k + 1)

/-- One left-to-right `findall` scan.  `prevW` records whether the
character before the current position is a word character (`false` at
the start of the text).  The fuel argument is an upper bound on the
number of scan steps; `scanTokens` supplies `l.length`, which suffices
because every step consumes at least one character. -/
def scanAux : Nat → List Char → Bool → List (List Char)
  | 0, _, _ => []
  | _ + 1, [], _ => []
  | fuel + 1, c :: rest, prevW =>
    match (if prevW ≠ isWordChar c
           then tryMatch (c :: rest) (((c :: rest).takeWhile isLowerAlpha).length)
           else none) with
    | some k => ((c :: rest).take k) :: scanAux fuel ((c :: rest).drop k) true
    | none => scanAux fuel rest (isWordChar c)

/-- `OptimizedTFIDF.tokenize` (rag_engine.py:46-52), minus its
`lru_cache` decoration, which is modelled separately by `tokenizeC`. -/
def tokenize (s : String) : List String :=
  (scanAux s.data.length (s.data.map lowerChar) false).map String.mk

/-! Maximal-run extraction, used to characterise the tokenizer and to
state the spec's reading of it. -/

/-- Splits a text into the maximal runs of characters satisfying `p`,
in order.  `cur` accumulates the (reversed) run in progress. -/
def runsAux (p : Char → Bool) : List Char → List Char → List (List Char)
  | [], cur => if cur.isEmpty then [] else [cur.reverse]
  | c :: rest, cur =>
    if p c then runsAux p rest (c :: cur)
    else if cur.isEmpty then runsAux p rest cur
    else cur.reverse :: runsAux p rest []

def runsBy (p : Char → Bool) (l : List Char) : List (List Char) := runsAux p l []

/-- The maximal word-character runs of the lowercased input that are
entirely lowercase alphabetic and of length ≥ 2 — the characterisation
of what the regex `\b[a-z]{2,}\b` actually extracts. -/
def wordTokens (s : String) : List String :=
  ((runsBy isWordChar (s.data.map lowerChar)).filter
      (fun r => decide (2 ≤ r.length) && r.all isLowerAlpha)).map String.mk

/-- What the spec sentence says: "maximal runs of lowercase alphabetic
characters of length ≥ 2" of the lowercased input. -/
def alphaTokens (s : String) : List String :=
  ((runsBy isLowerAlpha (s.data.map lowerChar)).filter
      (fun r => decide (2 ≤ r.length))).map String.mk

/-! ### The chunker

`FastSimpleRAGEngine._optimized_chunk_text` (rag_engine.py:408-438).
The `while start < len(text)` loop has no termination guard, so the
model makes the iteration count explicit: `chunkLoop` consumes one unit
of fuel per iteration and returns `none` if the fuel runs out before
the loop condition fails.  `optimized_chunk_text` supplies fuel
`len(text) + 1`, which is proved sufficient whenever
`overlap ≤ chunk_size / 2` (`chunkLoop_completes`); for other
parameters the loop can genuinely run forever, which surfaces as `none`
for every fuel value.

`start` is an `Int` because `start = end - overlap` can go negative in
Python; `pySlice` implements Python's slice semantics including
negative indices. -/

def pyIdx (len : Nat) (i : Int) : Nat :=
  if i < 0 then (len + i).toNat else min i.toNat len

/-- Python `l[a:b]`. -/
def pySlice (l : List Char) (a b : Int) : List Char :=
  (l.take (pyIdx l.length b)).drop (pyIdx l.length a)

/-- Python `str.strip()` (ASCII whitespace). -/
def pyStrip (l : List Char) : List Char :=
  ((l.dropWhile isSpaceChar).reverse.dropWhile isSpaceChar).reverse

def isSentencePunct (c : Char) : Bool := (c = '.') || (c = '!') || (c = '?')

/-- `j` is `match.end()` of some match of `re.finditer(r'[.!?]\s+', text)`:
there is an `i < j-1` holding a sentence punctuation character such that
positions `i+1 … j-1` are all whitespace (at least one), and the run is
maximal on the right (`j` is the end of text or a non-space).  For this
pattern the matches found by `finditer` are exactly these positions,
in increasing order: a punctuation character can never be consumed by a
previous match's `\s+`, so non-overlapping scanning finds every such
occurrence, and greediness of `\s+` gives right-maximality. -/
def isSentenceEnd (l : List Char) (j : Nat) : Bool :=
  (decide (j = l.length) || !(isSpaceChar (l.getD j ' '))) &&
  ((List.range j).any (fun i =>
      isSentencePunct (l.getD i ' ') && decide (i + 1 < j) &&
      ((List.range (j - i - 1)).all (fun t => isSpaceChar (l.getD (i + 1 + t) ' ')))))

def sentence_ends (l : List Char) : List Nat :=
  (List.range (l.length + 1)).filter (fun j => isSentenceEnd l j)

/-- The `end` value of one iteration of the chunking loop:
`end = start + chunk_size`; if `end < len(text)`, `best_break` starts
at `end` and is overwritten by every `sent_end` with
`start + chunk_size // 2 < sent_end <= end` (so it finishes as the last
qualifying one), and `end = best_break`. -/
def breakPoint (t : List Char) (cs : Nat) (ends : List Nat) (start : Int) : Int :=
  let e0 : Int := start + (cs : Int)
  if e0 < (t.length : Int) then
    ends.foldl
      (fun (b : Int) (se : Nat) =>
        if start + ((cs / 2 : Nat) : Int) < (se : Int) && (se : Int) ≤ e0
        then (se : Int) else b) e0
  else e0

/-- The `while start < len(text)` loop of `_optimized_chunk_text`.
Each iteration: compute the break point, append the stripped slice
`text[start:end].strip()` when non-empty, and advance
`start = end - overlap`. -/
def chunkLoop (t : List Char) (cs ov : Nat) (ends : List Nat) :
    Nat → Int → List (List Char) → Option (List (List Char))
  | 0, start, acc => if start < (t.length : Int) then none else some acc.reverse
  | fuel + 1, start, acc =>
    if start < (t.length : Int) then
      let e := breakPoint t cs ends start
      let chunk := pyStrip (pySlice t start e)
      chunkLoop t cs ov ends fuel (e - (ov : Int))
        (if chunk.isEmpty then acc else chunk :: acc)
    else some acc.reverse

/-- `FastSimpleRAGEngine._optimized_chunk_text` (rag_engine.py:408-438).
Returns `none` when the source loop does not terminate within
`len(text) + 1` iterations (sufficient fuel for every terminating
parameter combination, see `chunkLoop_completes`). -/
def optimized_chunk_text (t : List Char) (cs ov : Nat) : Option (List (List Char)) :=
  if t.length ≤ cs then some [t]
  else chunkLoop t cs ov (sentence_ends t) (t.length + 1) 0 []

/-- The chunker as called by `index_documents` (default arguments
`chunk_size=1000, overlap=200`; this call always terminates). -/
def chunk_text_default (s : String) : List String :=
  ((optimized_chunk_text s.data 1000 200).getD []).map String.mk

/-! ### The TF-IDF model (`OptimizedTFIDF`)

Python dict iteration order is insertion order; sets iterate in an
unspecified order.  The model keeps dictionaries as association lists.
Where the source iterates over a set (`set(tokens)`), the model uses
first-occurrence order (`dedupFirst`); no modelled behaviour depends on
that choice because the affected dictionaries are only ever used
through key lookup. -/

/-- First-occurrence deduplication (the key order of
`Counter(tokens)` and the iteration proxy for `set(tokens)`). -/
def dedupAux : List String → List String → List String
  | [], _ => []
  | x :: xs, seen => if x ∈ seen then dedupAux xs seen else x :: dedupAux xs (x :: seen)

def dedupFirst (l : List String) : List String := dedupAux l []

/-- Code-point lexicographic order on character lists (Python string
`<`), written as a structurally recursive Boolean so the kernel can
evaluate it (core's `String.ltb` is not kernel-reducible). -/
def lexLe : List Char → List Char → Bool
  | [], _ => true
  | _ :: _, [] => false
  | a :: as, b :: bs => if a < b then true else if b < a then false else lexLe as bs

def strLe (a b : String) : Bool := lexLe a.data b.data

/-- `OptimizedTFIDF.compute_tf` (rag_engine.py:54-66): term frequency
`count / len(tokens)` for each distinct token, in `Counter` key order
(first occurrence). -/
def compute_tf (tokens : List String) : List (String × ℚ) :=
  if tokens.length = 0 then []
  else (dedupFirst tokens).map
    (fun t => (t, qdiv ((tokens.count t : Nat) : ℚ) ((tokens.length : Nat) : ℚ)))

/-- `self.document_frequencies[token] += 1` on a `defaultdict(int)`:
update in place if present, append `(t, 1)` otherwise. -/
def bumpDF : List (String × Nat) → String → List (String × Nat)
  | [], t => [(t, 1)]
  | (u, n) :: rest, t => if u = t then (u, n + 1) :: rest else (u, n) :: bumpDF rest t

/-- The state of an `OptimizedTFIDF` instance.  `token_cache` models
the `@lru_cache(maxsize=10000)` on the bound method `tokenize` (keyed
by the exact input text); `vector_cache` models `self._vector_cache`
(keyed by `md5(text)`, modelled as the text itself).  The separate
attribute `self._tokenize_cache = {}` set in `__init__` is written and
read nowhere in the source and is omitted. -/
structure OptimizedTFIDF where
  vocabulary : List String
  document_frequencies : List (String × Nat)
  documents : List String
  tf_idf_vectors : List (List ℚ)
  idf_values : List (String × ℚ)
  token_cache : List (String × List String)
  vector_cache : List (String × List ℚ)
  deriving DecidableEq

def emptyTFIDF : OptimizedTFIDF :=
  { vocabulary := [], document_frequencies := [], documents := [], tf_idf_vectors := [],
    idf_values := [], token_cache := [], vector_cache := [] }

/-- The `lru_cache`-decorated `tokenize`: on a hit the entry moves to
most-recently-used position; on a miss the result is appended and, past
`maxsize = 10000` entries, the least recently used entry is evicted. -/
def tokenizeC (cache : List (String × List String)) (s : String) :
    List String × List (String × List String) :=
  match cache.lookup s with
  | some ts => (ts, (cache.filter (fun p => p.1 ≠ s)) ++ [(s, ts)])
  | none =>
    let ts := tokenize s
    let c := cache ++ [(s, ts)]
    (ts, if 10000 < c.length then c.drop 1 else c)

/-- Well-formedness of the tokenization cache: every entry stores the
tokenization of its key.  Every write the program ever performs is of
this shape (`tokenize` is pure), so the property holds in all reachable
states; theorems that read the cache assume it. -/
def TokCacheWF (c : List (String × List String)) : Prop :=
  ∀ p ∈ c, p.2 = tokenize p.1

/-- Tokenizes a list of documents left to right, threading the
`lru_cache` state (the `for doc in documents: tokens = self.tokenize(doc)`
loop of `fit`). -/
def mapTokenize (cache : List (String × List String)) :
    List String → List (List String) × List (String × List String)
  | [] => ([], cache)
  | d :: ds =>
    let (ts, c1) := tokenizeC cache d
    let (rest, c2) := mapTokenize c1 ds
    (ts :: rest, c2)

/-- One TF-IDF vector as built by the assignment loop
`for token, tf_score in tf.items(): if token in self.vocabulary:
vector[self.vocabulary[token]] = tf_score * self.idf_values[token]`
over `vector = [0.0] * len(vocabulary)`.  Since `vocabulary` maps the
sorted distinct tokens bijectively onto positions `0 … V-1`, the final
array holds at position `i` the value for the `i`-th vocabulary word if
that word occurs in `tf`, and `0.0` otherwise.  (`fit` guarantees
`self.idf_values[token]` exists for every vocabulary token, see
`vocab_mem_idf`; the `getD 0` default is never taken.) -/
def fitVector (vocabulary : List String) (idf_values : List (String × ℚ))
    (tf : List (String × ℚ)) : List ℚ :=
  vocabulary.map (fun w =>
    match tf.lookup w with
    | some tfv => qmul tfv ((idf_values.lookup w).getD 0)
    | none => 0)

/-- `OptimizedTFIDF.fit` (rag_engine.py:68-145), modelled as the
recompute path.  (The pickle-file fast path at the top of `fit` loads
data previously stored by a `fit` on a document list with the same
`md5`, i.e. the same recomputation result, so it is observationally the
recompute path; `_check_documents_cached` in the engine is constantly
`False`, so `_load_cached_index` is dead code.)

Faithful quirks preserved from the source:
* `self.document_frequencies` is never reset, so refitting accumulates
  counts on top of the previous fit's counts;
* `self.idf_values` entries are (re)assigned for every key of the
  accumulated `document_frequencies`, with the *new* corpus size `N`;
* `self._vector_cache` (and the `lru_cache` on `tokenize`) are not
  cleared. -/
def fit (rlog : ℚ → ℚ) (m : OptimizedTFIDF) (documents : List String) : OptimizedTFIDF :=
  let (all_tokens, tc) := mapTokenize m.token_cache documents
  let vocabulary := List.insertionSort (fun a b => strLe a b = true)
      (dedupFirst all_tokens.flatten)
  let df := all_tokens.foldl (fun d toks => (dedupFirst toks).foldl bumpDF d)
      m.document_frequencies
  let N : ℚ := ((documents.length : Nat) : ℚ)
  let idf := df.map (fun p => (p.1, if 0 < p.2 then rlog (qdiv N ((p.2 : Nat) : ℚ)) else 0))
  { vocabulary := vocabulary
    document_frequencies := df
    documents := documents
    tf_idf_vectors := all_tokens.map (fun toks => fitVector vocabulary idf (compute_tf toks))
    idf_values := idf
    token_cache := tc
    vector_cache := m.vector_cache }

/-- The vector computation inside `transform` (the cache-miss path):
like `fitVector` but with the source's extra membership test
`token in self.vocabulary and token in self.idf_values`. -/
def transformVector (m : OptimizedTFIDF) (s : String) :
    List ℚ × List (String × List String) :=
  let (tokens, tc) := tokenizeC m.token_cache s
  let tf := compute_tf tokens
  (m.vocabulary.map (fun w =>
      match tf.lookup w, m.idf_values.lookup w with
      | some tfv, some idfv => qmul tfv idfv
      | _, _ => 0), tc)

/-- `OptimizedTFIDF.transform` (rag_engine.py:147-174): consults
`_vector_cache` first; on a miss computes the vector, stores it, and
prunes the cache FIFO-style (drop the 100 oldest once above 1000
entries). -/
def transform (m : OptimizedTFIDF) (s : String) : List ℚ × OptimizedTFIDF :=
  match m.vector_cache.lookup s with
  | some v => (v, m)
  | none =>
    let (v, tc) := transformVector m s
    let vc := m.vector_cache ++ [(s, v)]
    (v, { m with token_cache := tc,
                 vector_cache := if 1000 < vc.length then vc.drop 100 else vc })

/-- `OptimizedTFIDF.cosine_similarity_optimized` (rag_engine.py:176-192):
one simultaneous pass over `zip(vec1, vec2)` accumulating the dot
product and both squared magnitudes, returning `0.0` when either
squared magnitude is zero. -/
def cosStep (acc : ℚ × ℚ × ℚ) (ab : ℚ × ℚ) : ℚ × ℚ × ℚ :=
  (qadd acc.1 (qmul ab.1 ab.2), qadd acc.2.1 (qmul ab.1 ab.1),
    qadd acc.2.2 (qmul ab.2 ab.2))

def cosine_similarity_optimized (rsqrt : ℚ → ℚ) (vec1 vec2 : List ℚ) : ℚ :=
  let p := (List.zip vec1 vec2).foldl cosStep ((0 : ℚ), (0 : ℚ), (0 : ℚ))
  if p.2.1 = 0 ∨ p.2.2 = 0 then 0
  else qdiv p.1 (qmul (rsqrt p.2.1) (rsqrt p.2.2))

/-! ### The engine (`FastSimpleRAGEngine`)

The SQLite table `documents` is modelled as a list of rows in insertion
order together with the next `AUTOINCREMENT` id.  The Groq client, the
HTTP probe and the pickle artefacts written by `_cache_index` are
external effects with no bearing on the claims and are not part of the
state. -/

/-- An input document record as consumed by `index_documents`
(produced by the file-parsing layer). -/
structure Doc where
  file_name : String
  file_path : String
  title : String
  content : String
  content_type : String
  deriving DecidableEq

/-- A chunk record: a row of the SQLite `documents` table and likewise
an entry of the in-memory `self.documents` list (whose `id` field is
the per-call `doc_id` counter). -/
structure Chunk where
  id : Nat
  file_name : String
  file_path : String
  title : String
  content : String
  content_type : String
  chunk_index : Nat
  deriving DecidableEq

/-- An element of the list returned by `search_similar_documents`. -/
structure SearchResult where
  content : String
  file_name : String
  title : String
  content_type : String
  chunk_index : Nat
  similarity_score : ℚ
  deriving DecidableEq

structure FastSimpleRAGEngine where
  tfidf : OptimizedTFIDF
  response_cache : List (String × String)
  similarity_cache : List ((String × Nat) × List SearchResult)
  db : List Chunk
  next_row_id : Nat
  documents : List Chunk
  indexed : Bool
  doc_norms : List ℚ
  deriving DecidableEq

/-- The engine state right after `__init__` against an empty database
file. -/
def initEngine : FastSimpleRAGEngine :=
  { tfidf := emptyTFIDF, response_cache := [], similarity_cache := [], db := [],
    next_row_id := 1, documents := [], indexed := false, doc_norms := [] }

/-- Accumulator of the document/chunk insertion loop of
`index_documents`. -/
structure IndexAcc where
  db : List Chunk
  next_row_id : Nat
  mem : List Chunk
  texts : List String
  doc_id : Nat

/-- The inner `for i, chunk in enumerate(chunks)` loop: inserts a row,
appends the chunk text to `texts` and the metadata record to
`self.documents`. -/
def insertChunksGo (d : Doc) : List String → Nat → IndexAcc → IndexAcc
  | [], _, acc => acc
  | c :: cs, i, acc =>
    insertChunksGo d cs (i + 1)
      { db := acc.db ++
          [{ id := acc.next_row_id, file_name := d.file_name, file_path := d.file_path,
             title := d.title, content := c, content_type := d.content_type, chunk_index := i }]
        next_row_id := acc.next_row_id + 1
        mem := acc.mem ++
          [{ id := acc.doc_id, file_name := d.file_name, file_path := d.file_path,
             title := d.title, content := c, content_type := d.content_type, chunk_index := i }]
        texts := acc.texts ++ [c]
        doc_id := acc.doc_id + 1 }

def insertDoc (acc : IndexAcc) (d : Doc) : IndexAcc :=
  insertChunksGo d (chunk_text_default d.content) 0 acc

/-- `FastSimpleRAGEngine.index_documents` (rag_engine.py:261-327).
`_check_documents_cached` is constantly `False` (rag_engine.py:329-332),
so the `_load_cached_index` branch is dead code and the body always:
deletes every row (`DELETE FROM documents`), empties `self.documents`,
chunks and inserts every document, commits, and then — only if at least
one chunk text was produced — refits the TF-IDF model, recomputes
`doc_norms` and sets `indexed`; with no chunk texts it returns `False`
after the deletion has already been committed.  Note what the failure
branch does *not* roll back: the table and `self.documents` stay
cleared, while `tfidf`, `doc_norms` and `indexed` keep their prior
values. -/
def index_documents (rlog rsqrt : ℚ → ℚ) (e : FastSimpleRAGEngine)
    (documents : List Doc) : Bool × FastSimpleRAGEngine :=
  let acc := documents.foldl insertDoc
    { db := [], next_row_id := e.next_row_id, mem := [], texts := [], doc_id := 0 }
  let e1 := { e with db := acc.db, next_row_id := acc.next_row_id, documents := acc.mem }
  if acc.texts.isEmpty then (false, e1)
  else
    let m := fit rlog e.tfidf acc.texts
    (true, { e1 with
      tfidf := m
      doc_norms := m.tf_idf_vectors.map (fun v => rsqrt (sumSq v))
      indexed := true })

/-- The filtered candidate list of `search_similar_documents`:
`for i, (doc_vector, doc_norm) in enumerate(zip(self.tfidf.tf_idf_vectors,
self.doc_norms))`, keeping `(similarity, i)` when `similarity > 0.01`. -/
def searchCandidates (qv : List ℚ) (qn : ℚ) :
    List (List ℚ × ℚ) → Nat → List (ℚ × Nat)
  | [], _ => []
  | (dv, dn) :: rest, i =>
    let s := if dn = 0 then 0 else qdiv (dotProd qv dv) (qmul qn dn)
    (if qlt (mkRat 1 100) s then [(s, i)] else []) ++ searchCandidates qv qn rest (i + 1)

/-- `similarities.sort(reverse=True)` on a list of `(score, index)`
tuples sorts by descending tuple order: score descending, and — because
`reverse` inverts the comparison of the *whole* tuple — equal scores
ordered by descending index.  Since the indices are pairwise distinct
this order has no ties at all, so every correct sort (in particular
Python's stable Timsort and `List.insertionSort` below) produces the
same list. -/
def pairGeB (a b : ℚ × Nat) : Bool :=
  qlt b.1 a.1 || (decide (a.1 = b.1) && decide (b.2 ≤ a.2))

def pairGe (a b : ℚ × Nat) : Prop := pairGeB a b = true

instance pairGe.decRel : DecidableRel pairGe :=
  fun a b => inferInstanceAs (Decidable (pairGeB a b = true))

def pySortDesc (l : List (ℚ × Nat)) : List (ℚ × Nat) := List.insertionSort pairGe l

/-- The ranked, truncated `(score, index)` list that
`search_similar_documents` derives on its compute path:
candidates, sorted descending, truncated to `n_results`. -/
def searchTop (rsqrt : ℚ → ℚ) (e : FastSimpleRAGEngine) (q : String) (n : Nat) :
    List (ℚ × Nat) :=
  let qv := (transform e.tfidf q).1
  let qn := rsqrt (sumSq qv)
  (pySortDesc (searchCandidates qv qn
      (List.zip e.tfidf.tf_idf_vectors e.doc_norms) 0)).take n

/-- Builds one result dict from `self.documents[idx]`.  The source
indexes the list directly and relies on the enclosing
`try`/`except` for out-of-range indices; `search_similar_documents`
below only calls this under an explicit bounds check that models that
exception path. -/
def mkResult (docs : List Chunk) (p : ℚ × Nat) : SearchResult :=
  let c := docs.getD p.2
    { id := 0, file_name := "", file_path := "", title := "", content := "",
      content_type := "", chunk_index := 0 }
  { content := c.content, file_name := c.file_name, title := c.title,
    content_type := c.content_type, chunk_index := c.chunk_index,
    similarity_score := p.1 }

/-- `FastSimpleRAGEngine.search_similar_documents` (rag_engine.py:440-508).
Order of effects, as in the source: not-indexed guard; similarity-cache
lookup keyed by `(md5(query), n_results)` (modelled `(query, n)`);
`transform` (which itself consults and updates the vector cache);
zero-norm guard (returns `[]` *without* caching); candidate scoring and
filtering; descending sort; truncation; result construction (an
out-of-range index raises `IndexError`, caught by the enclosing
`except` which returns `[]` without caching — the bounds check below);
cache insertion with FIFO pruning (drop the 100 oldest above 500). -/
def search_similar_documents (rsqrt : ℚ → ℚ) (e : FastSimpleRAGEngine)
    (q : String) (n : Nat) : List SearchResult × FastSimpleRAGEngine :=
  if e.indexed = false then ([], e)
  else
    match e.similarity_cache.lookup (q, n) with
    | some r => (r, e)
    | none =>
      let tr := transform e.tfidf q
      let e1 := { e with tfidf := tr.2 }
      let qn := rsqrt (sumSq tr.1)
      if qn = 0 then ([], e1)
      else
        let top := searchTop rsqrt e q n
        if top.all (fun p => p.2 < e.documents.length) then
          let results := top.map (mkResult e.documents)
          let sc := e1.similarity_cache ++ [((q, n), results)]
          (results, { e1 with
            similarity_cache := if 500 < sc.length then sc.drop 100 else sc })
        else ([], e1)

/-- `FastSimpleRAGEngine.clear_cache` (rag_engine.py:670-675): clears
`self.response_cache`, `self.similarity_cache` and
`self.tfidf._vector_cache` — and nothing else; in particular the
`lru_cache` on `tokenize` is not cleared (that would require
`self.tfidf.tokenize.cache_clear()`, which the source never calls). -/
def clear_cache (e : FastSimpleRAGEngine) : FastSimpleRAGEngine :=
  { e with response_cache := [], similarity_cache := [],
           tfidf := { e.tfidf with vector_cache := [] } }

/-! ### Concrete execution scenarios

All states below are reached from `initEngine` through the modelled
API, instantiating `math.log` with `ratLog` and `math.sqrt` with
`ratSqrt`.  The numbers involved keep both surrogates exact:
`ratLog` is evaluated only where its exact value is irrelevant or where
`ratSqrt` later sees a perfect square. -/

def docA : Doc :=
  { file_name := "A", file_path := "/A", title := "A", content := "cat cat",
    content_type := "text" }

def docB : Doc :=
  { file_name := "B", file_path := "/B", title := "B", content := "cat cat",
    content_type := "text" }

def docC : Doc :=
  { file_name := "C", file_path := "/C", title := "C", content := "dog",
    content_type := "text" }

/-- A freshly indexed corpus in which chunks 0 (`docA`) and 1 (`docB`)
have identical text, hence identical TF-IDF vectors and identical
similarity to any query. -/
def eTie : FastSimpleRAGEngine :=
  (index_documents ratLog ratSqrt initEngine [docA, docB, docC]).2

def docD1 : Doc :=
  { file_name := "D1", file_path := "/D1", title := "D1", content := "cat cat",
    content_type := "text" }

def docD2 : Doc :=
  { file_name := "D2", file_path := "/D2", title := "D2", content := "dog dog",
    content_type := "text" }

def docD3 : Doc :=
  { file_name := "D3", file_path := "/D3", title := "D3", content := "dog dog",
    content_type := "text" }

/-- Index `{D1: "cat cat", D2: "dog dog"}`. -/
def eA : FastSimpleRAGEngine :=
  (index_documents ratLog ratSqrt initEngine [docD1, docD2]).2

/-- … then search for `"cat"` (hits chunk D1; the result list is stored
in the similarity cache, the query vector in the vector cache, and the
tokenizations in the `lru_cache`). -/
def eB : FastSimpleRAGEngine := (search_similar_documents ratSqrt eA "cat" 5).2

/-- … then re-index with the single document `{D3: "dog dog"}`.
Neither the similarity cache nor the vector cache is invalidated by
`index_documents`, so both now hold entries computed against the old
corpus. -/
def eC : FastSimpleRAGEngine := (index_documents ratLog ratSqrt eB [docD3]).2

/-- `fit` on `["cat", "dog"]` from a fresh model. -/
def m1 : OptimizedTFIDF := fit ratLog emptyTFIDF ["cat", "dog"]

/-- `transform "cat"` (caching the vector `[1, 0]`), then refit on the
corpus `["cat"]`.  The stale cache entry for `"cat"` survives the
refit. -/
def m2 : OptimizedTFIDF := fit ratLog (transform m1 "cat").2 ["cat"]

/-! ## Bridge lemmas

The kernel-computable wrappers `qadd/qmul/qdiv/qlt/qle` agree with ℚ's
field operations and order.  Every abstract proof below immediately
rewrites through these and then reasons about ordinary rational
arithmetic. -/

theorem qadd_eq (a b : ℚ) : qadd a b = a + b := by
  rw [qadd, Rat.add_def, Rat.normalize_eq_mkRat, Rat.mkRat_eq_divInt]
  push_cast
  ring_nf

theorem qmul_eq (a b : ℚ) : qmul a b = a * b := by
  rw [qmul, Rat.mul_def, Rat.normalize_eq_mkRat, Rat.mkRat_eq_divInt]
  push_cast
  ring_nf

theorem qdiv_eq (a b : ℚ) : qdiv a b = a / b := by
  rw [qdiv, Rat.div_def']

theorem qlt_iff (a b : ℚ) : qlt a b = true ↔ a < b := by
  rw [qlt, Rat.lt_def]
  simp

theorem qle_iff (a b : ℚ) : qle a b = true ↔ a ≤ b := by
  rw [qle, Rat.le_def]
  simp

/-! ## C4 — `clear_cache` -/

/-- C4 (amended): `clear_cache` empties the vector cache, the
similarity cache and the response cache and leaves everything else —
including the fourth cache layer, the `lru_cache` on `tokenize` —
unchanged: the persisted rows, the in-memory corpus, every component of
the fitted TF-IDF model, the precomputed norms and the indexed flag all
keep their values. -/
theorem C4_clear_cache (e : FastSimpleRAGEngine) :
    (clear_cache e).response_cache = [] ∧
    (clear_cache e).similarity_cache = [] ∧
    (clear_cache e).tfidf.vector_cache = [] ∧
    (clear_cache e).tfidf.token_cache = e.tfidf.token_cache ∧
    (clear_cache e).db = e.db ∧
    (clear_cache e).documents = e.documents ∧
    (clear_cache e).tfidf.vocabulary = e.tfidf.vocabulary ∧
    (clear_cache e).tfidf.document_frequencies = e.tfidf.document_frequencies ∧
    (clear_cache e).tfidf.documents = e.tfidf.documents ∧
    (clear_cache e).tfidf.tf_idf_vectors = e.tfidf.tf_idf_vectors ∧
    (clear_cache e).tfidf.idf_values = e.tfidf.idf_values ∧
    (clear_cache e).doc_norms = e.doc_norms ∧
    (clear_cache e).indexed = e.indexed :=
  ⟨rfl, rfl, rfl, rfl, rfl, rfl, rfl, rfl, rfl, rfl, rfl, rfl, rfl⟩

/-- C4 counterexample: in the reachable state `eB` the tokenization
cache (`lru_cache` on `tokenize`) is non-empty, and `clear_cache`
leaves it non-empty — so not all four cache layers are empty
afterwards, only three. -/
theorem C4_counterexample :
    (clear_cache eB).tfidf.token_cache ≠ [] ∧
    (clear_cache eB).response_cache = [] ∧
    (clear_cache eB).similarity_cache = [] ∧
    (clear_cache eB).tfidf.vector_cache = [] := by decide

/-! ## C3 — `index_documents` on a chunk-less input -/

theorem insertDoc_no_chunks (acc : IndexAcc) (d : Doc)
    (h : chunk_text_default d.content = []) : insertDoc acc d = acc := by
  simp [insertDoc, h, insertChunksGo]

theorem foldl_insertDoc_no_chunks (docs : List Doc) (acc : IndexAcc)
    (h : ∀ d ∈ docs, chunk_text_default d.content = []) :
    docs.foldl insertDoc acc = acc := by
  induction docs generalizing acc with
  | nil => rfl
  | cons d ds ih =>
    rw [List.foldl_cons, insertDoc_no_chunks acc d (h d (by simp))]
    exact ih acc (fun x hx => h x (by simp [hx]))

/-- C3 (amended): when no chunks result from the input set (every
document chunks to nothing — e.g. the empty input list),
`index_documents` returns `False`, but by that point it has already
deleted every persisted chunk record and emptied the in-memory corpus
(the `DELETE FROM documents` / `self.documents = []` happen before the
emptiness check and the deletion is committed); only the fitted TF-IDF
model, the precomputed norms and the `indexed` flag survive with their
prior values.  The prior chunk state does *not* survive the failed
call. -/
theorem C3_failed_index (rlog rsqrt : ℚ → ℚ) (e : FastSimpleRAGEngine)
    (docs : List Doc) (h : ∀ d ∈ docs, chunk_text_default d.content = []) :
    index_documents rlog rsqrt e docs = (false, { e with db := [], documents := [] }) := by
  unfold index_documents
  rw [foldl_insertDoc_no_chunks docs _ h]
  rfl

theorem C3_witness :
    (∀ d ∈ ([] : List Doc), chunk_text_default d.content = []) ∧
    index_documents ratLog ratSqrt eA [] = (false, { eA with db := [], documents := [] }) :=
  ⟨by simp, C3_failed_index ratLog ratSqrt eA [] (by simp)⟩

/-- C3 counterexample: `eA` holds two persisted chunk records; the
failing call `index_documents eA []` returns `False` and leaves the
chunk table and the in-memory corpus empty, while the stale model and
`indexed = true` survive — the prior state is destroyed, not
preserved. -/
theorem C3_counterexample :
    eA.db.length = 2 ∧ eA.documents.length = 2 ∧ eA.indexed = true ∧
    (index_documents ratLog ratSqrt eA []).1 = false ∧
    (index_documents ratLog ratSqrt eA []).2.db = [] ∧
    (index_documents ratLog ratSqrt eA []).2.documents = [] ∧
    (index_documents ratLog ratSqrt eA []).2.indexed = true ∧
    (index_documents ratLog ratSqrt eA []).2.tfidf.tf_idf_vectors =
      eA.tfidf.tf_idf_vectors := by decide

theorem dropWhile_self_dropWhile (p : Char → Bool) (l : List Char) :
    (l.dropWhile p).dropWhile p = l.dropWhile p := by
  induction l with
  | nil => rfl
  | cons a l ih =>
    by_cases h : p a
    · simp [List.dropWhile_cons, h, ih]
    · simp [List.dropWhile_cons, h]

theorem pyStrip_idem (l : List Char) : pyStrip (pyStrip l) = pyStrip l := by
  have hdwA : (l.dropWhile isSpaceChar).dropWhile isSpaceChar = l.dropWhile isSpaceChar :=
    dropWhile_self_dropWhile _ l
  have hBrev : (pyStrip l).reverse =
      (l.dropWhile isSpaceChar).reverse.dropWhile isSpaceChar := by
    simp [pyStrip]
  have hpre : pyStrip l <+: l.dropWhile isSpaceChar := by
    rw [← List.reverse_suffix, hBrev]
    exact List.dropWhile_suffix _
  have h1 : (pyStrip l).dropWhile isSpaceChar = pyStrip l := by
    cases hBv : pyStrip l with
    | nil => rfl
    | cons b t =>
      obtain ⟨r, hr⟩ := hpre
      rw [hBv] at hr
      have hb : isSpaceChar b = false := by
        by_contra hb
        rw [Bool.not_eq_false] at hb
        have h2 := hdwA
        rw [← hr, List.cons_append, List.dropWhile_cons_of_pos hb] at h2
        have hlen := congrArg List.length h2
        rw [List.length_cons] at hlen
        have h3 := (@List.dropWhile_suffix Char (t ++ r) isSpaceChar).length_le
        omega
      simp [List.dropWhile_cons_of_neg, hb]
  conv_lhs => rw [pyStrip, h1, hBrev,
    dropWhile_self_dropWhile isSpaceChar (l.dropWhile isSpaceChar).reverse]
  rw [← hBrev, List.reverse_reverse]

theorem chunk_push_inv (X : List Char) (acc : List (List Char))
    (hacc : ∀ c ∈ acc, c ≠ [] ∧ pyStrip c = c) :
    ∀ c ∈ (if (pyStrip X).isEmpty then acc else pyStrip X :: acc),
      c ≠ [] ∧ pyStrip c = c := by
  split
  · exact hacc
  case isFalse hne =>
    intro c hc
    rcases List.mem_cons.mp hc with rfl | hc
    · exact ⟨by simpa [List.isEmpty_iff] using hne, pyStrip_idem X⟩
    · exact hacc c hc

theorem chunkLoop_stripped (t : List Char) (cs ov : Nat) (ends : List Nat) :
    ∀ (fuel : Nat) (start : Int) (acc l : List (List Char)),
      (∀ c ∈ acc, c ≠ [] ∧ pyStrip c = c) →
      chunkLoop t cs ov ends fuel start acc = some l →
      ∀ c ∈ l, c ≠ [] ∧ pyStrip c = c := by
  intro fuel
  induction fuel with
  | zero =>
    intro start acc l hacc h
    rw [chunkLoop] at h
    split at h
    · exact absurd h (by simp)
    · injection h with h
      subst h
      intro c hc
      exact hacc c (List.mem_reverse.mp hc)
  | succ fuel ih =>
    intro start acc l hacc h
    rw [chunkLoop] at h
    split at h
    · exact ih _ _ l (chunk_push_inv _ acc hacc) h
    · injection h with h
      subst h
      intro c hc
      exact hacc c (List.mem_reverse.mp hc)

theorem breakPoint_lb (t : List Char) (cs : Nat) (ends : List Nat) (start : Int)
    (h1 : 1 ≤ cs) :
    start + ((cs / 2 : Nat) : Int) + 1 ≤ breakPoint t cs ends start := by
  have hcs : ((cs / 2 : Nat) : Int) + 1 ≤ (cs : Int) := by
    have := Nat.div_lt_self (show 0 < cs by omega) (show 1 < 2 by omega)
    omega
  unfold breakPoint
  simp only []
  split
  case isTrue h =>
    have key : ∀ (ss : List Nat) (b : Int), start + ((cs / 2 : Nat) : Int) + 1 ≤ b →
        start + ((cs / 2 : Nat) : Int) + 1 ≤ ss.foldl
          (fun (b : Int) (se : Nat) =>
            if start + ((cs / 2 : Nat) : Int) < (se : Int) && (se : Int) ≤ start + (cs : Int)
            then (se : Int) else b) b := by
      intro ss
      induction ss with
      | nil => intro b hb; exact hb
      | cons se ss ih2 =>
        intro b hb
        rw [List.foldl_cons]
        apply ih2
        split
        case isTrue hc =>
          rw [Bool.and_eq_true, decide_eq_true_iff, decide_eq_true_iff] at hc
          omega
        case isFalse => exact hb
    exact key ends _ (by omega)
  case isFalse => omega

theorem chunkLoop_completes (t : List Char) (cs ov : Nat) (ends : List Nat)
    (h1 : 1 ≤ cs) (h2 : ov ≤ cs / 2) :
    ∀ (fuel : Nat) (start : Int) (acc : List (List Char)),
      (t.length : Int) ≤ start + fuel →
      (chunkLoop t cs ov ends fuel start acc).isSome := by
  intro fuel
  induction fuel with
  | zero =>
    intro start acc h
    rw [chunkLoop]
    split
    case isTrue hlt => omega
    case isFalse => simp
  | succ fuel ih =>
    intro start acc h
    rw [chunkLoop]
    split
    case isTrue hlt =>
      apply ih
      have hbp := breakPoint_lb t cs ends start h1
      have hov : (ov : Int) ≤ ((cs / 2 : Nat) : Int) := by exact_mod_cast h2
      omega
    case isFalse => simp

theorem optimized_chunk_text_total (t : List Char) (cs ov : Nat)
    (h1 : 1 ≤ cs) (h2 : ov ≤ cs / 2) :
    (optimized_chunk_text t cs ov).isSome := by
  unfold optimized_chunk_text
  split
  · simp
  · exact chunkLoop_completes t cs ov _ h1 h2 _ 0 [] (by omega)

/-- C5 (amended): for input of length at most the chunk size the
chunker returns exactly one chunk equal to the input *as is* (the
source's short path `return [text]` does not trim, and keeps
whitespace-only input); on the long path (input longer than the chunk
size) every returned chunk is non-empty and equal to its own trim
(chunks are `text[start:end].strip()` and empty ones are skipped). -/
theorem C5_chunker (t : List Char) (cs ov : Nat) :
    (t.length ≤ cs → optimized_chunk_text t cs ov = some [t]) ∧
    (∀ l, cs < t.length → optimized_chunk_text t cs ov = some l →
      ∀ c ∈ l, c ≠ [] ∧ pyStrip c = c) := by
  constructor
  · intro h
    unfold optimized_chunk_text
    simp [h]
  · intro l hlen h
    unfold optimized_chunk_text at h
    rw [if_neg (by omega)] at h
    exact chunkLoop_stripped t cs ov _ _ 0 [] l (by simp) h

theorem C5_witness :
    (" a ".data.length ≤ 1000 ∧ optimized_chunk_text " a ".data 1000 200 = some [" a ".data]) ∧
    (8 < "abcdef. ghij klmno".data.length ∧
      ("mno".data ≠ [] ∧ pyStrip "mno".data = "mno".data)) :=
  ⟨⟨by decide, (C5_chunker " a ".data 1000 200).1 (by decide)⟩,
   by decide,
   (C5_chunker "abcdef. ghij klmno".data 8 3).2
     ["abcdef.".data, "f. ghij".data, "ij klmno".data, "mno".data]
     (by decide) (by decide) "mno".data (by decide)⟩

/-- C5 counterexample: the short path returns the *untrimmed* input
(` a ` stays ` a `), and a whitespace-only input yields a chunk that is
empty after trimming — both halves of the claim fail on the short
path. -/
theorem C5_counterexample :
    optimized_chunk_text " a ".data 1000 200 = some [" a ".data] ∧
    pyStrip " a ".data = "a".data ∧ " a ".data ≠ "a".data ∧
    optimized_chunk_text " ".data 1000 200 = some [" ".data] ∧
    pyStrip " ".data = [] := by decide

/-- C6 (amended): the chunker has no guard at all against
non-advancing windows; its loop terminates for the parameters actually
used because the window provably advances whenever
`overlap ≤ chunk_size / 2` and `chunk_size ≥ 1` (in particular for the
defaults 1000/200).  For `overlap ≥ chunk_size` it can run forever
(see the counterexample). -/
theorem C6_terminates (t : List Char) (cs ov : Nat) (h1 : 1 ≤ cs) (h2 : ov ≤ cs / 2) :
    (optimized_chunk_text t cs ov).isSome :=
  optimized_chunk_text_total t cs ov h1 h2

theorem C6_witness :
    1 ≤ 8 ∧ 3 ≤ 8 / 2 ∧ (optimized_chunk_text "abcdef. ghij klmno".data 8 3).isSome :=
  ⟨by decide, by decide, C6_terminates "abcdef. ghij klmno".data 8 3 (by decide) (by decide)⟩

/-- C6 counterexample: on `"abcdef"` with `chunk_size = 2` and
`overlap = 2` (an `overlap ≥ chunk_size` instance) the loop body maps
`start = 0` back to `start = 0`, so the `while` loop never exits: the
run is incomplete for *every* fuel bound — the code neither enforces
`overlap < chunk_size` nor detects the non-advancing window. -/
theorem C6_counterexample :
    (2 ≤ "abcdef".data.length ∧ optimized_chunk_text "abcdef".data 2 2 = none) ∧
    ∀ (fuel : Nat) (acc : List (List Char)),
      chunkLoop "abcdef".data 2 2 (sentence_ends "abcdef".data) fuel 0 acc = none := by
  refine ⟨by decide, ?_⟩
  intro fuel
  induction fuel with
  | zero => intro acc; rfl
  | succ fuel ih =>
    intro acc
    rw [show chunkLoop "abcdef".data 2 2 (sentence_ends "abcdef".data) (fuel + 1) 0 acc =
      chunkLoop "abcdef".data 2 2 (sentence_ends "abcdef".data) fuel 0
        ("ab".data :: acc) from rfl]
    exact ih _

theorem qmul_comm (a b : ℚ) : qmul a b = qmul b a := by
  rw [qmul_eq, qmul_eq, mul_comm]

theorem cosFold_swap (ps : List (ℚ × ℚ)) :
    ∀ a b c : ℚ,
      (ps.map Prod.swap).foldl cosStep (a, c, b) =
        ((ps.foldl cosStep (a, b, c)).1, (ps.foldl cosStep (a, b, c)).2.2,
          (ps.foldl cosStep (a, b, c)).2.1) := by
  induction ps with
  | nil => intro a b c; rfl
  | cons p ps ih =>
    intro a b c
    simp only [List.map_cons, List.foldl_cons]
    have hstep : cosStep (a, c, b) p.swap =
        (qadd a (qmul p.1 p.2), qadd c (qmul p.2 p.2), qadd b (qmul p.1 p.1)) := by
      simp [cosStep, Prod.swap, qmul_comm p.2 p.1]
    rw [hstep]
    have hstep2 : cosStep (a, b, c) p =
        (qadd a (qmul p.1 p.2), qadd b (qmul p.1 p.1), qadd c (qmul p.2 p.2)) := rfl
    rw [hstep2]
    exact ih _ _ _

theorem cosFold_eq (v1 : List ℚ) :
    ∀ (v2 : List ℚ), v1.length = v2.length →
      ∀ a b c : ℚ, (List.zip v1 v2).foldl cosStep (a, b, c) =
        ((List.zip v1 v2).foldl (fun x p => qadd x (qmul p.1 p.2)) a,
          v1.foldl (fun x y => qadd x (qmul y y)) b,
          v2.foldl (fun x y => qadd x (qmul y y)) c) := by
  induction v1 with
  | nil =>
    intro v2 h a b c
    rw [List.length_nil] at h
    rw [List.eq_nil_of_length_eq_zero h.symm]
    rfl
  | cons x v1 ih =>
    intro v2 h a b c
    cases v2 with
    | nil => simp at h
    | cons y v2 =>
      simp only [List.zip_cons_cons, List.foldl_cons]
      rw [List.length_cons, List.length_cons] at h
      exact ih v2 (by omega) _ _ _

theorem zip_self_eq_map (v : List ℚ) : List.zip v v = v.map (fun x => (x, x)) := by
  induction v with
  | nil => rfl
  | cons x v ih => simp [List.zip_cons_cons, ih]

theorem cosFold_diag (v : List ℚ) :
    ∀ a b c : ℚ, (v.map (fun x => (x, x))).foldl cosStep (a, b, c) =
      (v.foldl (fun x y => qadd x (qmul y y)) a,
        v.foldl (fun x y => qadd x (qmul y y)) b,
        v.foldl (fun x y => qadd x (qmul y y)) c) := by
  induction v with
  | nil => intro a b c; rfl
  | cons x v ih =>
    intro a b c
    simp only [List.map_cons, List.foldl_cons]
    exact ih _ _ _

/-- C9: cosine similarity is symmetric (even without a length
hypothesis, since `zip` is truncating and symmetric up to swapping);
it returns `0` whenever either input (of equal lengths) has zero
magnitude, taking the guarded branch rather than dividing by zero; and
for a vector of non-zero magnitude whose square root the `sqrt`
function inverts exactly (the idealisation of "1.0 within
floating-point tolerance"), the self-similarity is exactly 1. -/
theorem C9_cosine (rsqrt : ℚ → ℚ) :
    (∀ v1 v2, cosine_similarity_optimized rsqrt v1 v2 =
        cosine_similarity_optimized rsqrt v2 v1) ∧
    (∀ v1 v2, v1.length = v2.length → sumSq v1 = 0 ∨ sumSq v2 = 0 →
      cosine_similarity_optimized rsqrt v1 v2 = 0) ∧
    (∀ v, sumSq v ≠ 0 → qmul (rsqrt (sumSq v)) (rsqrt (sumSq v)) = sumSq v →
      cosine_similarity_optimized rsqrt v v = 1) := by
  refine ⟨?_, ?_, ?_⟩
  · intro v1 v2
    unfold cosine_similarity_optimized
    rw [← List.zip_swap v1 v2, cosFold_swap]
    simp only []
    by_cases h : (List.foldl cosStep (0, 0, 0) (v1.zip v2)).2.1 = 0 ∨
        (List.foldl cosStep (0, 0, 0) (v1.zip v2)).2.2 = 0
    · rw [if_pos h, if_pos (Or.symm h)]
    · rw [if_neg h, if_neg (fun hh => h (Or.symm hh)), qmul_comm]
  · intro v1 v2 hlen hz
    unfold cosine_similarity_optimized
    rw [cosFold_eq v1 v2 hlen]
    simp only []
    rw [if_pos]
    exact hz
  · intro v hv hs
    unfold cosine_similarity_optimized
    rw [zip_self_eq_map, cosFold_diag]
    simp only []
    have hfold : v.foldl (fun x y => qadd x (qmul y y)) 0 = sumSq v := rfl
    rw [hfold, if_neg (by simp [hv]), hs, qdiv_eq, div_self hv]

theorem C9_witness :
    cosine_similarity_optimized ratSqrt [1, 2] [3, 4] =
      cosine_similarity_optimized ratSqrt [3, 4] [1, 2] ∧
    (([0, 0] : List ℚ).length = ([1, 2] : List ℚ).length ∧ sumSq [(0 : ℚ), 0] = 0 ∧
      cosine_similarity_optimized ratSqrt [0, 0] [1, 2] = 0) ∧
    (sumSq [(3 : ℚ), 4] ≠ 0 ∧
      qmul (ratSqrt (sumSq [(3 : ℚ), 4])) (ratSqrt (sumSq [(3 : ℚ), 4])) = sumSq [(3 : ℚ), 4] ∧
      cosine_similarity_optimized ratSqrt [3, 4] [3, 4] = 1) :=
  ⟨(C9_cosine ratSqrt).1 [1, 2] [3, 4],
   ⟨by decide, by decide, (C9_cosine ratSqrt).2.1 [0, 0] [1, 2] (by decide) (Or.inl (by decide))⟩,
   by decide, by decide,
   (C9_cosine ratSqrt).2.2 [3, 4] (by decide) (by decide)⟩

theorem pairGe_iff (a b : ℚ × Nat) :
    pairGe a b ↔ (b.1 < a.1 ∨ (a.1 = b.1 ∧ b.2 ≤ a.2)) := by
  simp [pairGe, pairGeB, Bool.or_eq_true, Bool.and_eq_true, decide_eq_true_iff, qlt_iff]

instance pairGe.total : IsTotal (ℚ × Nat) pairGe := by
  constructor
  intro a b
  rw [pairGe_iff, pairGe_iff]
  rcases lt_trichotomy a.1 b.1 with h | h | h
  · exact Or.inr (Or.inl h)
  · rcases Nat.le_total a.2 b.2 with h2 | h2
    · exact Or.inr (Or.inr ⟨h.symm, h2⟩)
    · exact Or.inl (Or.inr ⟨h, h2⟩)
  · exact Or.inl (Or.inl h)

instance pairGe.trans : IsTrans (ℚ × Nat) pairGe := by
  constructor
  intro a b c hab hbc
  rw [pairGe_iff] at hab hbc ⊢
  rcases hab with h1 | ⟨h1, h1b⟩
  · rcases hbc with h2 | ⟨h2, _⟩
    · exact Or.inl (h2.trans h1)
    · exact Or.inl (h2 ▸ h1)
  · rcases hbc with h2 | ⟨h2, h2b⟩
    · exact Or.inl (h1 ▸ h2)
    · exact Or.inr ⟨h1.trans h2, le_trans h2b h1b⟩

theorem pySortDesc_sorted (l : List (ℚ × Nat)) : List.Sorted pairGe (pySortDesc l) :=
  List.sorted_insertionSort pairGe l

theorem pySortDesc_perm (l : List (ℚ × Nat)) : (pySortDesc l).Perm l :=
  List.perm_insertionSort pairGe l

theorem mem_searchCandidates (qv : List ℚ) (qn : ℚ) :
    ∀ (pairs : List (List ℚ × ℚ)) (i : Nat) (p : ℚ × Nat),
      p ∈ searchCandidates qv qn pairs i →
      qlt (mkRat 1 100) p.1 = true ∧ i ≤ p.2 ∧ p.2 < i + pairs.length := by
  intro pairs
  induction pairs with
  | nil => intro i p h; simp [searchCandidates] at h
  | cons pr rest ih =>
    intro i p h
    simp only [searchCandidates] at h
    generalize (if pr.2 = 0 then (0 : ℚ) else qdiv (dotProd qv pr.1) (qmul qn pr.2)) = s at h
    rcases List.mem_append.mp h with h1 | h1
    · by_cases hq : qlt (mkRat 1 100) s = true
      · rw [if_pos hq] at h1
        have hp := List.mem_singleton.mp h1
        subst hp
        exact ⟨hq, Nat.le_refl _, by rw [List.length_cons]; omega⟩
      · rw [if_neg hq] at h1
        simp at h1
    · obtain ⟨hs, hlo, hhi⟩ := ih (i + 1) p h1
      refine ⟨hs, by omega, ?_⟩
      rw [List.length_cons]
      omega

theorem searchCandidates_snd_increasing (qv : List ℚ) (qn : ℚ) :
    ∀ (pairs : List (List ℚ × ℚ)) (i : Nat),
      List.Pairwise (fun p r : ℚ × Nat => p.2 < r.2) (searchCandidates qv qn pairs i) := by
  intro pairs
  induction pairs with
  | nil => intro i; simp [searchCandidates]
  | cons pr rest ih =>
    intro i
    simp only [searchCandidates]
    generalize (if pr.2 = 0 then (0 : ℚ) else qdiv (dotProd qv pr.1) (qmul qn pr.2)) = s
    rw [List.pairwise_append]
    refine ⟨?_, ih (i + 1), ?_⟩
    · by_cases hq : qlt (mkRat 1 100) s = true
      · rw [if_pos hq]
        exact List.pairwise_singleton _ _
      · rw [if_neg hq]
        exact List.Pairwise.nil
    · intro a ha b hb
      obtain ⟨_, hlo, _⟩ := mem_searchCandidates qv qn rest (i + 1) b hb
      by_cases hq : qlt (mkRat 1 100) s = true
      · rw [if_pos hq] at ha
        have hp := List.mem_singleton.mp ha
        subst hp
        show i < b.2
        omega
      · rw [if_neg hq] at ha
        simp at ha

theorem searchTop_sorted (rsqrt : ℚ → ℚ) (e : FastSimpleRAGEngine) (q : String) (n : Nat) :
    List.Pairwise pairGe (searchTop rsqrt e q n) := by
  unfold searchTop
  exact List.Pairwise.sublist (List.take_sublist _ _) (pySortDesc_sorted _)

theorem searchTop_strict (rsqrt : ℚ → ℚ) (e : FastSimpleRAGEngine) (q : String) (n : Nat) :
    List.Pairwise (fun p r : ℚ × Nat => r.1 < p.1 ∨ (p.1 = r.1 ∧ r.2 < p.2))
      (searchTop rsqrt e q n) := by
  unfold searchTop
  apply List.Pairwise.sublist (List.take_sublist _ _)
  have hsort := pySortDesc_sorted (searchCandidates (transform e.tfidf q).1
    (rsqrt (sumSq (transform e.tfidf q).1)) (List.zip e.tfidf.tf_idf_vectors e.doc_norms) 0)
  have hinc := searchCandidates_snd_increasing (transform e.tfidf q).1
    (rsqrt (sumSq (transform e.tfidf q).1)) (List.zip e.tfidf.tf_idf_vectors e.doc_norms) 0
  have hne : List.Pairwise (fun p r : ℚ × Nat => p.2 ≠ r.2)
      (searchCandidates (transform e.tfidf q).1 (rsqrt (sumSq (transform e.tfidf q).1))
        (List.zip e.tfidf.tf_idf_vectors e.doc_norms) 0) :=
    hinc.imp (fun h => Nat.ne_of_lt h)
  have hne2 := ((pySortDesc_perm _).pairwise_iff (fun h => Ne.symm h)).mpr hne
  refine (hsort.and hne2).imp ?_
  intro a b hab
  obtain ⟨hge, hneq⟩ := hab
  rcases (pairGe_iff a b).mp hge with h | ⟨heq, hle⟩
  · exact Or.inl h
  · exact Or.inr ⟨heq, lt_of_le_of_ne hle (Ne.symm hneq)⟩

theorem searchTop_mem (rsqrt : ℚ → ℚ) (e : FastSimpleRAGEngine) (q : String) (n : Nat)
    (p : ℚ × Nat) (hp : p ∈ searchTop rsqrt e q n) :
    qlt (mkRat 1 100) p.1 = true ∧
    p.2 < (List.zip e.tfidf.tf_idf_vectors e.doc_norms).length := by
  unfold searchTop at hp
  have h1 := List.mem_of_mem_take hp
  have h2 := (pySortDesc_perm _).mem_iff.mp h1
  obtain ⟨hq, _, hlt⟩ := mem_searchCandidates _ _ _ 0 p h2
  exact ⟨hq, by omega⟩

theorem searchTop_length (rsqrt : ℚ → ℚ) (e : FastSimpleRAGEngine) (q : String) (n : Nat) :
    (searchTop rsqrt e q n).length ≤ n := by
  unfold searchTop
  exact List.length_take_le _ _

theorem search_result_cases (rsqrt : ℚ → ℚ) (e : FastSimpleRAGEngine) (q : String) (n : Nat)
    (hi : e.indexed = true) (hc : e.similarity_cache.lookup (q, n) = none) :
    (search_similar_documents rsqrt e q n).1 = [] ∨
    (search_similar_documents rsqrt e q n).1 =
      (searchTop rsqrt e q n).map (mkResult e.documents) := by
  unfold search_similar_documents
  rw [hi, hc]
  simp only [Bool.true_eq_false, if_false]
  split
  · exact Or.inl rfl
  · split
    · exact Or.inr rfl
    · exact Or.inl rfl

/-- C1 (amended): on the compute path (engine indexed, no cached entry
for `(query, n_results)`), the result list of
`search_similar_documents` is sorted by similarity score in descending
order, contains only entries with score strictly greater than `0.01`,
and has length at most `n_results`; when two chunks have equal scores
the chunk *later* in corpus order is ranked first —
`similarities.sort(reverse=True)` sorts `(score, index)` tuples in
descending tuple order, so equal scores tie-break on descending index
(last-seen-wins, the opposite of the claimed first-seen-wins; the
underlying `(score, index)` ranking is strictly decreasing in this
order, fourth conjunct). -/
theorem C1_search_ranking (rsqrt : ℚ → ℚ) (e : FastSimpleRAGEngine) (q : String) (n : Nat)
    (hi : e.indexed = true) (hc : e.similarity_cache.lookup (q, n) = none) :
    List.Sorted (fun r s : SearchResult => s.similarity_score ≤ r.similarity_score)
      (search_similar_documents rsqrt e q n).1 ∧
    (∀ r ∈ (search_similar_documents rsqrt e q n).1, mkRat 1 100 < r.similarity_score) ∧
    (search_similar_documents rsqrt e q n).1.length ≤ n ∧
    List.Pairwise (fun p r : ℚ × Nat => r.1 < p.1 ∨ (p.1 = r.1 ∧ r.2 < p.2))
      (searchTop rsqrt e q n) := by
  refine ⟨?_, ?_, ?_, searchTop_strict rsqrt e q n⟩
  · rcases search_result_cases rsqrt e q n hi hc with h | h
    · rw [h]
      exact List.Pairwise.nil
    · rw [h, List.Sorted, List.pairwise_map]
      refine (searchTop_sorted rsqrt e q n).imp ?_
      intro a b hab
      show (mkResult e.documents b).similarity_score ≤ (mkResult e.documents a).similarity_score
      rcases (pairGe_iff a b).mp hab with hlt | ⟨heq, _⟩
      · exact le_of_lt hlt
      · exact le_of_eq heq.symm
  · intro r hr
    rcases search_result_cases rsqrt e q n hi hc with h | h
    · rw [h] at hr
      simp at hr
    · rw [h] at hr
      obtain ⟨p, hp, rfl⟩ := List.mem_map.mp hr
      have := (searchTop_mem rsqrt e q n p hp).1
      show mkRat 1 100 < p.1
      exact (qlt_iff _ _).mp this
  · rcases search_result_cases rsqrt e q n hi hc with h | h
    · rw [h]
      simp
    · rw [h, List.length_map]
      exact searchTop_length rsqrt e q n

theorem C1_witness :
    (eTie.indexed = true ∧ eTie.similarity_cache.lookup ("cat", 5) = none) ∧
    List.Sorted (fun r s : SearchResult => s.similarity_score ≤ r.similarity_score)
      (search_similar_documents ratSqrt eTie "cat" 5).1 ∧
    (∀ r ∈ (search_similar_documents ratSqrt eTie "cat" 5).1,
      mkRat 1 100 < r.similarity_score) ∧
    (search_similar_documents ratSqrt eTie "cat" 5).1.length ≤ 5 ∧
    List.Pairwise (fun p r : ℚ × Nat => r.1 < p.1 ∨ (p.1 = r.1 ∧ r.2 < p.2))
      (searchTop ratSqrt eTie "cat" 5) :=
  ⟨⟨by decide, by decide⟩, C1_search_ranking ratSqrt eTie "cat" 5 (by decide) (by decide)⟩

/-- C1 counterexample: in `eTie` the corpus order is A, B, C, chunks A
and B are identical (`"cat cat"`), and the query `"cat"` scores both at
exactly 1 — yet chunk B (corpus index 1) is ranked *before* chunk A
(corpus index 0), refuting the claimed first-seen-wins tie-break. -/
theorem C1_counterexample :
    eTie.documents.map (fun c => c.file_name) = ["A", "B", "C"] ∧
    (search_similar_documents ratSqrt eTie "cat" 5).1.map
      (fun r => (r.file_name, r.similarity_score)) = [("B", 1), ("A", 1)] := by decide

theorem insertChunksGo_counts (d : Doc) :
    ∀ (cs : List String) (i : Nat) (acc : IndexAcc),
      (insertChunksGo d cs i acc).mem.length = acc.mem.length + cs.length ∧
      (insertChunksGo d cs i acc).texts.length = acc.texts.length + cs.length := by
  intro cs
  induction cs with
  | nil => intro i acc; simp [insertChunksGo]
  | cons c cs ih =>
    intro i acc
    rw [insertChunksGo]
    obtain ⟨h1, h2⟩ := ih (i + 1) _
    constructor
    · rw [h1]
      simp
      omega
    · rw [h2]
      simp
      omega

theorem indexAcc_mem_texts (docs : List Doc) :
    ∀ acc : IndexAcc, acc.mem.length = acc.texts.length →
      (docs.foldl insertDoc acc).mem.length = (docs.foldl insertDoc acc).texts.length := by
  induction docs with
  | nil => intro acc h; exact h
  | cons d ds ih =>
    intro acc h
    rw [List.foldl_cons]
    apply ih
    obtain ⟨h1, h2⟩ := insertChunksGo_counts d (chunk_text_default d.content) 0 acc
    rw [insertDoc, h1, h2, h]

theorem mapTokenize_length (ds : List String) :
    ∀ c, (mapTokenize c ds).1.length = ds.length := by
  induction ds with
  | nil => intro c; rfl
  | cons d ds ih =>
    intro c
    simp only [mapTokenize]
    simp [ih]

theorem fit_vectors_length (rlog : ℚ → ℚ) (m : OptimizedTFIDF) (docs : List String) :
    (fit rlog m docs).tf_idf_vectors.length = docs.length := by
  rcases hmt : mapTokenize m.token_cache docs with ⟨ats, tc⟩
  have hlen := mapTokenize_length docs m.token_cache
  rw [hmt] at hlen
  simp only [fit, hmt]
  rw [List.length_map]
  exact hlen

/-- C10: after every successful `index_documents` call the in-memory
chunk list, the TF-IDF vector list and the precomputed norm list have
the same length, and every chunk index appearing in the ranked
candidate list of any subsequent search is within the bounds of the
chunk list, so result construction never references a missing chunk. -/
theorem C10_invariant (rlog rsqrt : ℚ → ℚ) (e : FastSimpleRAGEngine) (docs : List Doc)
    (h : (index_documents rlog rsqrt e docs).1 = true) :
    ((index_documents rlog rsqrt e docs).2.documents.length =
      (index_documents rlog rsqrt e docs).2.tfidf.tf_idf_vectors.length ∧
     (index_documents rlog rsqrt e docs).2.documents.length =
      (index_documents rlog rsqrt e docs).2.doc_norms.length) ∧
    ∀ (rs : ℚ → ℚ) (q : String) (m : Nat) (p : ℚ × Nat),
      p ∈ searchTop rs (index_documents rlog rsqrt e docs).2 q m →
      p.2 < (index_documents rlog rsqrt e docs).2.documents.length := by
  unfold index_documents at h ⊢
  set acc := docs.foldl insertDoc
    { db := [], next_row_id := e.next_row_id, mem := [], texts := [], doc_id := 0 } with hacc
  by_cases hE : acc.texts.isEmpty
  · rw [if_pos hE] at h
    simp at h
  · rw [if_neg hE] at h ⊢
    simp only []
    have hmt : acc.mem.length = acc.texts.length := indexAcc_mem_texts docs _ rfl
    have hv := fit_vectors_length rlog e.tfidf acc.texts
    have hlen1 : acc.mem.length = (fit rlog e.tfidf acc.texts).tf_idf_vectors.length := by
      omega
    refine ⟨⟨hlen1, by rw [List.length_map]; exact hlen1⟩, ?_⟩
    intro rs q m p hp
    have hb := (searchTop_mem rs _ q m p hp).2
    rw [List.length_zip, List.length_map] at hb
    simp only [] at hb
    omega

theorem C10_witness :
    (index_documents ratLog ratSqrt initEngine [docA, docB, docC]).1 = true ∧
    (((index_documents ratLog ratSqrt initEngine [docA, docB, docC]).2.documents.length =
        (index_documents ratLog ratSqrt initEngine
          [docA, docB, docC]).2.tfidf.tf_idf_vectors.length ∧
      (index_documents ratLog ratSqrt initEngine [docA, docB, docC]).2.documents.length =
        (index_documents ratLog ratSqrt initEngine [docA, docB, docC]).2.doc_norms.length) ∧
     ∀ (rs : ℚ → ℚ) (q : String) (m : Nat) (p : ℚ × Nat),
       p ∈ searchTop rs (index_documents ratLog ratSqrt initEngine [docA, docB, docC]).2 q m →
       p.2 < (index_documents ratLog ratSqrt initEngine
         [docA, docB, docC]).2.documents.length) :=
  ⟨by decide, C10_invariant ratLog ratSqrt initEngine [docA, docB, docC] (by decide)⟩

/-- C7 (amended): `search_similar_documents` returns the empty list
(and leaves the state untouched) whenever the engine is not indexed;
and, on a similarity-cache miss, it returns the empty list whenever the
query vector produced by `transform` has zero magnitude (the
`query_norm == 0` guard; `math.sqrt 0 = 0` is the `hz` hypothesis on
the sqrt model).  Both are normal returns, not raised errors.  The
cache-miss proviso is necessary: the similarity cache survives
re-indexing, so a stale entry can answer a zero-vector query with
non-empty results (see the counterexample). -/
theorem C7_empty_results (rsqrt : ℚ → ℚ) (e : FastSimpleRAGEngine) (q : String) (n : Nat)
    (hz : rsqrt 0 = 0) :
    (e.indexed = false → search_similar_documents rsqrt e q n = ([], e)) ∧
    (e.indexed = true → e.similarity_cache.lookup (q, n) = none →
      sumSq (transform e.tfidf q).1 = 0 →
      (search_similar_documents rsqrt e q n).1 = []) := by
  constructor
  · intro hi
    unfold search_similar_documents
    rw [hi]
    simp
  · intro hi hc hzv
    unfold search_similar_documents
    rw [hi, hc]
    simp only [Bool.true_eq_false, if_false]
    rw [hzv, hz]
    simp

theorem C7_witness :
    ratSqrt 0 = 0 ∧
    (initEngine.indexed = false ∧
      search_similar_documents ratSqrt initEngine "cat" 5 = ([], initEngine)) ∧
    (eA.indexed = true ∧ eA.similarity_cache.lookup ("zz zz", 5) = none ∧
      sumSq (transform eA.tfidf "zz zz").1 = 0 ∧
      (search_similar_documents ratSqrt eA "zz zz" 5).1 = []) :=
  ⟨by decide,
   ⟨by decide, (C7_empty_results ratSqrt initEngine "cat" 5 (by decide)).1 (by decide)⟩,
   by decide, by decide, by decide,
   (C7_empty_results ratSqrt eA "zz zz" 5 (by decide)).2 (by decide) (by decide) (by decide)⟩

/-- C7 counterexample: in the reachable state `eC` (index `{D1, D2}`,
search `"cat"`, then re-index `{D3: "dog dog"}`), the query `"cat"`
has no recognized token — `"cat"` is not in the current vocabulary and
its freshly computed TF-IDF vector is the zero vector — yet
`search_similar_documents` returns a non-empty result: the entry the
similarity cache still holds from before the re-index, pointing at the
no-longer-indexed chunk `D1`. -/
theorem C7_counterexample :
    eC.indexed = true ∧
    tokenize "cat" = ["cat"] ∧ "cat" ∉ eC.tfidf.vocabulary ∧
    sumSq (transformVector eC.tfidf "cat").1 = 0 ∧
    (search_similar_documents ratSqrt eC "cat" 5).1 =
      [{ content := "cat cat", file_name := "D1", title := "D1", content_type := "text",
         chunk_index := 0, similarity_score := 1 }] := by decide

theorem lookup_wf {c : List (String × List String)} (hwf : TokCacheWF c) {s : String}
    {ts : List String} (h : c.lookup s = some ts) : ts = tokenize s := by
  induction c with
  | nil => simp [List.lookup] at h
  | cons p rest ih =>
    rw [List.lookup] at h
    rcases hbe : s == p.1 with _ | _
    · rw [hbe] at h
      exact ih (fun x hx => hwf x (List.mem_cons_of_mem _ hx)) h
    · rw [hbe] at h
      injection h with h
      have hs : s = p.1 := eq_of_beq hbe
      rw [← h, hwf p (List.mem_cons_self _ _), hs]

theorem tokenizeC_wf (c : List (String × List String)) (s : String) (hwf : TokCacheWF c) :
    (tokenizeC c s).1 = tokenize s ∧ TokCacheWF (tokenizeC c s).2 := by
  unfold tokenizeC
  cases hl : c.lookup s with
  | some ts =>
    simp only [hl]
    refine ⟨lookup_wf hwf hl, ?_⟩
    intro p hp
    rcases List.mem_append.mp hp with hp | hp
    · exact hwf p (List.mem_of_mem_filter hp)
    · rcases List.mem_singleton.mp hp with rfl
      exact lookup_wf hwf hl
  | none =>
    simp only [hl]
    refine ⟨by trivial, ?_⟩
    split
    · intro p hp
      have hp2 := List.mem_of_mem_drop hp
      rcases List.mem_append.mp hp2 with hp3 | hp3
      · exact hwf p hp3
      · rcases List.mem_singleton.mp hp3 with rfl
        rfl
    · intro p hp
      rcases List.mem_append.mp hp with hp3 | hp3
      · exact hwf p hp3
      · rcases List.mem_singleton.mp hp3 with rfl
        rfl

theorem mapTokenize_wf (ds : List String) :
    ∀ c, TokCacheWF c →
      (mapTokenize c ds).1 = ds.map tokenize ∧ TokCacheWF (mapTokenize c ds).2 := by
  induction ds with
  | nil => intro c h; exact ⟨rfl, h⟩
  | cons d ds ih =>
    intro c h
    obtain ⟨h1, h2⟩ := tokenizeC_wf c d h
    obtain ⟨h3, h4⟩ := ih (tokenizeC c d).2 h2
    simp only [mapTokenize]
    constructor
    · rw [List.map_cons, ← h1, ← h3]
    · exact h4

theorem dedupAux_subset (l : List String) :
    ∀ seen, ∀ w ∈ dedupAux l seen, w ∈ l := by
  induction l with
  | nil => intro seen w hw; simp [dedupAux] at hw
  | cons x xs ih =>
    intro seen w hw
    rw [dedupAux] at hw
    split at hw
    · exact List.mem_cons_of_mem _ (ih seen w hw)
    · rcases List.mem_cons.mp hw with rfl | hw
      · exact List.mem_cons_self _ _
      · exact List.mem_cons_of_mem _ (ih _ w hw)

theorem mem_dedupAux (l : List String) :
    ∀ seen w, w ∈ l → w ∉ seen → w ∈ dedupAux l seen := by
  induction l with
  | nil => intro seen w hw; simp at hw
  | cons x xs ih =>
    intro seen w hwl hws
    rw [dedupAux]
    split
    case isTrue hx =>
      rcases List.mem_cons.mp hwl with rfl | hwl
      · exact absurd hx hws
      · exact ih seen w hwl hws
    case isFalse hx =>
      rcases List.mem_cons.mp hwl with rfl | hwl
      · exact List.mem_cons_self _ _
      · by_cases hwx : w = x
        · subst hwx; exact List.mem_cons_self _ _
        · refine List.mem_cons_of_mem _ (ih _ w hwl ?_)
          intro hmem
          rcases List.mem_cons.mp hmem with h | h
          · exact hwx h
          · exact hws h

theorem mem_keys_bumpDF (t w : String) :
    ∀ df : List (String × Nat), (w = t ∨ w ∈ df.map Prod.fst) →
      w ∈ (bumpDF df t).map Prod.fst := by
  intro df
  induction df with
  | nil =>
    intro h
    rcases h with rfl | h
    · simp [bumpDF]
    · simp at h
  | cons p rest ih =>
    intro h
    rw [show bumpDF (p :: rest) t =
        if p.1 = t then (p.1, p.2 + 1) :: rest else p :: bumpDF rest t from by
      rcases p with ⟨u, n⟩; rfl]
    split
    case isTrue hpt =>
      rcases h with rfl | h
      · simp [hpt]
      · simpa using h
    case isFalse hpt =>
      rcases h with rfl | h
      · exact List.mem_cons_of_mem _ (ih (Or.inl rfl))
      · rcases List.mem_map.mp h with ⟨q, hq, rfl⟩
        rcases List.mem_cons.mp hq with rfl | hq
        · exact List.mem_cons_self _ _
        · exact List.mem_cons_of_mem _ (ih (Or.inr (List.mem_map_of_mem _ hq)))

theorem mem_keys_fold_bump (w : String) :
    ∀ (ts : List String) (df : List (String × Nat)),
      (w ∈ ts ∨ w ∈ df.map Prod.fst) → w ∈ (ts.foldl bumpDF df).map Prod.fst := by
  intro ts
  induction ts with
  | nil =>
    intro df h
    rcases h with h | h
    · simp at h
    · exact h
  | cons t ts ih =>
    intro df h
    rw [List.foldl_cons]
    apply ih
    rcases h with h | h
    · rcases List.mem_cons.mp h with rfl | h
      · exact Or.inr (mem_keys_bumpDF w w df (Or.inl rfl))
      · exact Or.inl h
    · exact Or.inr (mem_keys_bumpDF t w df (Or.inr h))

theorem mem_keys_fold_addDoc (w : String) :
    ∀ (ats : List (List String)) (df : List (String × Nat)),
      ((∃ toks ∈ ats, w ∈ toks) ∨ w ∈ df.map Prod.fst) →
      w ∈ (ats.foldl (fun d toks => (dedupFirst toks).foldl bumpDF d) df).map Prod.fst := by
  intro ats
  induction ats with
  | nil =>
    intro df h
    rcases h with ⟨toks, h, _⟩ | h
    · simp at h
    · exact h
  | cons toks ats ih =>
    intro df h
    rw [List.foldl_cons]
    apply ih
    rcases h with ⟨toks2, htoks2, hwin⟩ | h
    · rcases List.mem_cons.mp htoks2 with rfl | htoks2
      · refine Or.inr (mem_keys_fold_bump w (dedupFirst toks2) df (Or.inl ?_))
        exact mem_dedupAux toks2 [] w hwin (by simp)
      · exact Or.inl ⟨toks2, htoks2, hwin⟩
    · exact Or.inr (mem_keys_fold_bump w (dedupFirst toks) df (Or.inr h))

theorem fit_vocab_idf (rlog : ℚ → ℚ) (m : OptimizedTFIDF) (docs : List String) (w : String)
    (hw : w ∈ (fit rlog m docs).vocabulary) :
    (((fit rlog m docs).idf_values).lookup w).isSome := by
  rcases hmt : mapTokenize m.token_cache docs with ⟨ats, tc⟩
  simp only [fit, hmt] at hw ⊢
  have hw2 : w ∈ dedupFirst ats.flatten := (List.perm_insertionSort _ _).mem_iff.mp hw
  have hw3 : w ∈ ats.flatten := dedupAux_subset _ _ w hw2
  obtain ⟨toks, htoks, hwin⟩ := List.mem_flatten.mp hw3
  rw [List.lookup_isSome_iff]
  have hkey : w ∈ (ats.foldl (fun d toks => (dedupFirst toks).foldl bumpDF d)
      m.document_frequencies).map Prod.fst :=
    mem_keys_fold_addDoc w ats _ (Or.inl ⟨toks, htoks, hwin⟩)
  obtain ⟨p, hp, hpw⟩ := List.mem_map.mp hkey
  refine ⟨(p.1, if 0 < p.2 then rlog (qdiv ((docs.length : Nat) : ℚ) ((p.2 : Nat) : ℚ)) else 0),
    List.mem_map_of_mem _ hp, by simp [hpw]⟩

/-- C8 (amended): after `fit(corpus)`, transforming a text that is the
`i`-th element of the fitted corpus reproduces exactly the `i`-th
stored TF-IDF vector — provided the vector cache holds no entry for
that text (`fit` does not clear `_vector_cache`, so a stale entry from
before the refit is returned verbatim otherwise, see the
counterexample).  The token-cache well-formedness hypothesis holds in
every reachable state since all cache writes store `tokenize` of the
key. -/
theorem C8_fit_transform (rlog : ℚ → ℚ) (m0 : OptimizedTFIDF) (docs : List String)
    (i : Nat) (text : String)
    (hwf : TokCacheWF m0.token_cache)
    (hi : docs[i]? = some text)
    (hc : (fit rlog m0 docs).vector_cache.lookup text = none) :
    (fit rlog m0 docs).tf_idf_vectors[i]? =
      some ((transform (fit rlog m0 docs) text).1) := by
  rcases hmt : mapTokenize m0.token_cache docs with ⟨ats, tc⟩
  have hwfm := mapTokenize_wf docs m0.token_cache hwf
  rw [hmt] at hwfm
  obtain ⟨hats, htc⟩ := hwfm
  have hats2 : ats = docs.map tokenize := hats
  have htc2 : TokCacheWF tc := htc
  have hfield : (fit rlog m0 docs).token_cache = tc := by simp only [fit, hmt]
  have hlhs : (fit rlog m0 docs).tf_idf_vectors[i]? =
      some (fitVector (fit rlog m0 docs).vocabulary (fit rlog m0 docs).idf_values
        (compute_tf (tokenize text))) := by
    conv_lhs => rw [show (fit rlog m0 docs).tf_idf_vectors =
      ats.map (fun toks => fitVector (fit rlog m0 docs).vocabulary
        (fit rlog m0 docs).idf_values (compute_tf toks)) from by simp only [fit, hmt]]
    rw [hats2, List.getElem?_map, List.getElem?_map, hi]
    rfl
  have htrans : (transform (fit rlog m0 docs) text).1 =
      (transformVector (fit rlog m0 docs) text).1 := by
    unfold transform
    rw [hc]
  have htv : (transformVector (fit rlog m0 docs) text).1 =
      (fit rlog m0 docs).vocabulary.map (fun w =>
        match (compute_tf (tokenize text)).lookup w,
            (fit rlog m0 docs).idf_values.lookup w with
        | some tfv, some idfv => qmul tfv idfv
        | _, _ => 0) := by
    unfold transformVector
    rw [hfield]
    rcases htk : tokenizeC tc text with ⟨toks, tc2⟩
    have h1 := (tokenizeC_wf tc text htc2).1
    rw [htk] at h1
    have h1b : toks = tokenize text := h1
    subst h1b
    simp only [htk]
  rw [hlhs, htrans, htv]
  congr 1
  unfold fitVector
  apply List.map_congr_left
  intro w hw
  have hidf := fit_vocab_idf rlog m0 docs w hw
  cases hlook : ((fit rlog m0 docs).idf_values).lookup w with
  | none => rw [hlook] at hidf; simp at hidf
  | some idfv =>
    cases htf : (compute_tf (tokenize text)).lookup w with
    | none => rfl
    | some tfv => simp

theorem C8_witness :
    TokCacheWF emptyTFIDF.token_cache ∧
    (["cat cat", "dog"] : List String)[0]? = some "cat cat" ∧
    (fit ratLog emptyTFIDF ["cat cat", "dog"]).vector_cache.lookup "cat cat" = none ∧
    (fit ratLog emptyTFIDF ["cat cat", "dog"]).tf_idf_vectors[0]? =
      some ((transform (fit ratLog emptyTFIDF ["cat cat", "dog"]) "cat cat").1) :=
  ⟨by intro p hp; simp [emptyTFIDF] at hp, by decide, by decide,
   C8_fit_transform ratLog emptyTFIDF ["cat cat", "dog"] 0 "cat cat"
     (by intro p hp; simp [emptyTFIDF] at hp) (by decide) (by decide)⟩

/-- C8 counterexample: fit on `["cat", "dog"]`, transform `"cat"`
(cached as `[1, 0]` with `ratLog` for `math.log`), then refit on
`["cat"]`.  `"cat"` is element 0 of the fitted corpus and its stored
vector is `[-1/2]` (the accumulated document frequencies make the IDF
negative), but `transform "cat"` returns the stale cached `[1, 0]` —
not even of the right dimension. -/
theorem C8_counterexample :
    m2.documents = ["cat"] ∧
    m2.tf_idf_vectors[0]? = some [mkRat (-1) 2] ∧
    (transform m2 "cat").1 = [1, 0] ∧
    (transform m2 "cat").1 ≠ m2.tf_idf_vectors.getD 0 [] := by decide

theorem alpha_imp_word (c : Char) (h : isLowerAlpha c = true) : isWordChar c = true := by
  unfold isWordChar
  unfold isLowerAlpha at h
  rw [h]
  rfl

theorem takeWhile_alpha_le_word (l : List Char) :
    (l.takeWhile isLowerAlpha).length ≤ (l.takeWhile isWordChar).length := by
  induction l with
  | nil => simp
  | cons c rest ih =>
    by_cases ha : isLowerAlpha c = true
    · rw [List.takeWhile_cons, List.takeWhile_cons, ha, alpha_imp_word c ha]
      simpa using ih
    · rw [List.takeWhile_cons, if_neg (by simp [ha])]
      simp

theorem drop_length_takeWhile (p : Char → Bool) :
    ∀ l : List Char, l.drop (l.takeWhile p).length = l.dropWhile p := by
  intro l
  induction l with
  | nil => rfl
  | cons c rest ih =>
    by_cases hp : p c = true
    · rw [List.takeWhile_cons, List.dropWhile_cons, if_pos hp, if_pos hp, List.length_cons,
        List.drop_succ_cons]
      exact ih
    · rw [List.takeWhile_cons, List.dropWhile_cons, if_neg (by simp [hp]), if_neg (by simp [hp])]
      rfl

theorem dropWhile_head_false (p : Char → Bool) :
    ∀ (l : List Char) (c : Char) (t : List Char), l.dropWhile p = c :: t → p c = false := by
  intro l
  induction l with
  | nil => intro c t h; simp at h
  | cons a rest ih =>
    intro c t h
    rw [List.dropWhile_cons] at h
    split at h
    · exact ih c t h
    case isFalse h2 =>
      injection h with h1 _
      subst h1
      simpa using h2

theorem boundaryAfter_at_word_end (l : List Char) :
    boundaryAfter l (l.takeWhile isWordChar).length = true := by
  unfold boundaryAfter
  rw [drop_length_takeWhile]
  cases hd : l.dropWhile isWordChar with
  | nil => rfl
  | cons c t =>
    simp only []
    rw [dropWhile_head_false isWordChar l c t hd]
    rfl

theorem drop_word_head (l : List Char) (j : Nat)
    (hj : j < (l.takeWhile isWordChar).length) :
    ∃ c t, l.drop j = c :: t ∧ isWordChar c = true := by
  induction l generalizing j with
  | nil => simp at hj
  | cons a rest ih =>
    by_cases hw : isWordChar a = true
    · rw [List.takeWhile_cons, if_pos hw, List.length_cons] at hj
      cases j with
      | zero => exact ⟨a, rest, rfl, hw⟩
      | succ j =>
        rw [List.drop_succ_cons]
        exact ih j (by omega)
    · rw [List.takeWhile_cons, if_neg (by simp [hw])] at hj
      simp at hj

theorem tryMatch_none_of_lt (l : List Char) (k : Nat) :
    k < (l.takeWhile isWordChar).length → tryMatch l k = none := by
  induction k using Nat.strong_induction_on with
  | _ k ih =>
    intro hk
    match k with
    | 0 => rfl
    | 1 => rfl
    | k + 2 =>
      rw [tryMatch]
      obtain ⟨c, t, hd, hw⟩ := drop_word_head l (k + 2) hk
      rw [show boundaryAfter l (k + 2) = false from by
        unfold boundaryAfter; rw [hd]; simp [hw]]
      rw [if_neg (by simp)]
      exact ih (k + 1) (by omega) (by omega)

theorem takeWhile_word_all_alpha (l : List Char)
    (h : (l.takeWhile isWordChar).all isLowerAlpha = true) :
    l.takeWhile isLowerAlpha = l.takeWhile isWordChar := by
  induction l with
  | nil => rfl
  | cons c rest ih =>
    by_cases hw : isWordChar c = true
    · rw [List.takeWhile_cons, if_pos hw] at h
      rw [List.all_cons, Bool.and_eq_true] at h
      rw [show List.takeWhile isWordChar (c :: rest) = c :: List.takeWhile isWordChar rest from by
        rw [List.takeWhile_cons, if_pos hw]]
      rw [List.takeWhile_cons, if_pos h.1, ih h.2]
    · have ha : isLowerAlpha c = false := by
        cases hh : isLowerAlpha c
        · rfl
        · exact absurd (alpha_imp_word c hh) hw
      have hwf : isWordChar c = false := by
        cases hh : isWordChar c
        · rfl
        · exact absurd hh hw
      rw [List.takeWhile_cons, List.takeWhile_cons, ha, hwf]
      simp

theorem runsAux_accum (p : Char → Bool) :
    ∀ (l cur : List Char), cur ≠ [] →
      runsAux p l cur = (cur.reverse ++ l.takeWhile p) :: runsAux p (l.dropWhile p) [] := by
  intro l
  induction l with
  | nil =>
    intro cur h
    rw [runsAux]
    rw [if_neg (by simpa [List.isEmpty_iff] using h)]
    simp [runsAux]
  | cons c rest ih =>
    intro cur h
    rw [runsAux]
    by_cases hp : p c = true
    · rw [if_pos hp, ih (c :: cur) (by simp), List.takeWhile_cons, if_pos hp,
        List.dropWhile_cons, if_pos hp]
      simp
    · have hpf : p c = false := by
        cases hh : p c
        · rfl
        · exact absurd hh hp
      rw [hpf]
      rw [if_neg (by simp)]
      rw [if_neg (by simpa [List.isEmpty_iff] using h)]
      rw [List.takeWhile_cons, List.dropWhile_cons, hpf]
      simp [runsAux, hpf]

theorem runsBy_cons_word (p : Char → Bool) (c : Char) (rest : List Char) (hp : p c = true) :
    runsBy p (c :: rest) =
      ((c :: rest).takeWhile p) :: runsBy p ((c :: rest).dropWhile p) := by
  unfold runsBy
  rw [runsAux]
  rw [if_pos hp, runsAux_accum p rest [c] (by simp), List.takeWhile_cons, if_pos hp,
    List.dropWhile_cons, if_pos hp]
  simp

theorem runsBy_cons_nonword (p : Char → Bool) (c : Char) (rest : List Char)
    (hp : p c = false) : runsBy p (c :: rest) = runsBy p rest := by
  unfold runsBy
  rw [runsAux, hp]
  simp

theorem takeWhile_word_cons_len (c : Char) (rest : List Char) (hw : isWordChar c = true) :
    1 ≤ ((c :: rest).takeWhile isWordChar).length := by
  rw [List.takeWhile_cons, if_pos hw]
  simp

theorem scanAux_eq_runs :
    ∀ (fuel : Nat) (l : List Char) (prevW : Bool), l.length ≤ fuel →
      scanAux fuel l prevW =
        (runsBy isWordChar (if prevW then l.dropWhile isWordChar else l)).filter
          (fun r => decide (2 ≤ r.length) && r.all isLowerAlpha) := by
  intro fuel
  induction fuel with
  | zero =>
    intro l prevW h
    have hl : l = [] := List.eq_nil_of_length_eq_zero (by omega)
    subst hl
    cases prevW <;> rfl
  | succ fuel ih =>
    intro l prevW h
    cases l with
    | nil => cases prevW <;> rfl
    | cons c rest =>
      rw [List.length_cons] at h
      have hrest : rest.length ≤ fuel := by omega
      cases prevW with
      | false =>
        rw [scanAux, if_neg Bool.false_ne_true]
        by_cases hw : isWordChar c = true
        · rw [if_pos (by simp [hw])]
          by_cases hall : ((c :: rest).takeWhile isWordChar).all isLowerAlpha = true
          · have heq := takeWhile_word_all_alpha (c :: rest) hall
            by_cases h2 : 2 ≤ ((c :: rest).takeWhile isWordChar).length
            · -- a full match of the (all-alphabetic) word run
              have hm2 : 2 ≤ ((c :: rest).takeWhile isLowerAlpha).length := by rw [heq]; exact h2
              obtain ⟨k, hk⟩ : ∃ k, ((c :: rest).takeWhile isLowerAlpha).length = k + 2 :=
                ⟨((c :: rest).takeWhile isLowerAlpha).length - 2, by omega⟩
              have htm : tryMatch (c :: rest) (((c :: rest).takeWhile isLowerAlpha).length) =
                  some (((c :: rest).takeWhile isLowerAlpha).length) := by
                rw [hk, tryMatch, if_pos]
                rw [← hk, heq]
                exact boundaryAfter_at_word_end (c :: rest)
              rw [htm]
              show (c :: rest).take (((c :: rest).takeWhile isLowerAlpha).length) ::
                  scanAux fuel ((c :: rest).drop
                    (((c :: rest).takeWhile isLowerAlpha).length)) true = _
              have htake : (c :: rest).take (((c :: rest).takeWhile isLowerAlpha).length) =
                  (c :: rest).takeWhile isLowerAlpha :=
                (List.prefix_iff_eq_take.mp (List.takeWhile_prefix isLowerAlpha)).symm
              have hdrop : (c :: rest).drop (((c :: rest).takeWhile isLowerAlpha).length) =
                  (c :: rest).dropWhile isWordChar := by
                rw [heq, drop_length_takeWhile]
              rw [htake, hdrop]
              have hdlen : ((c :: rest).dropWhile isWordChar).length ≤ fuel := by
                rw [List.dropWhile_cons, if_pos hw]
                have := (@List.dropWhile_suffix Char rest isWordChar).length_le
                omega
              rw [ih _ true hdlen, if_pos rfl, dropWhile_self_dropWhile]
              rw [runsBy_cons_word isWordChar c rest hw, List.filter_cons]
              rw [if_pos (by rw [← heq] at hall h2 ⊢; simp [hall, h2])]
              rw [heq]
            · -- word run shorter than 2 characters: no match possible
              have hm2 : ((c :: rest).takeWhile isLowerAlpha).length < 2 := by
                rw [heq]; omega
              have htm : tryMatch (c :: rest) (((c :: rest).takeWhile isLowerAlpha).length) =
                  none := by
                have hcase : ((c :: rest).takeWhile isLowerAlpha).length = 0 ∨
                    ((c :: rest).takeWhile isLowerAlpha).length = 1 := by omega
                rcases hcase with h0 | h1
                · rw [h0]; rfl
                · rw [h1]; rfl
              rw [htm]
              show scanAux fuel rest (isWordChar c) = _
              rw [ih rest (isWordChar c) hrest, hw, if_pos rfl]
              rw [runsBy_cons_word isWordChar c rest hw, List.filter_cons]
              rw [if_neg (by simp; omega)]
              rw [List.dropWhile_cons, if_pos hw]
          · -- the word run mixes letters with digits/underscores: no match
            have hallf : ((c :: rest).takeWhile isWordChar).all isLowerAlpha = false := by
              cases hh : ((c :: rest).takeWhile isWordChar).all isLowerAlpha
              · rfl
              · exact absurd hh hall
            have hmlt : ((c :: rest).takeWhile isLowerAlpha).length <
                ((c :: rest).takeWhile isWordChar).length := by
              rcases Nat.lt_or_ge (((c :: rest).takeWhile isLowerAlpha).length)
                  (((c :: rest).takeWhile isWordChar).length) with hlt | hge
              · exact hlt
              · exfalso
                have hle := takeWhile_alpha_le_word (c :: rest)
                have heq2 : ((c :: rest).takeWhile isLowerAlpha).length =
                    ((c :: rest).takeWhile isWordChar).length := by omega
                have ha := List.prefix_iff_eq_take.mp
                  (List.takeWhile_prefix (l := c :: rest) isLowerAlpha)
                have hb := List.prefix_iff_eq_take.mp
                  (List.takeWhile_prefix (l := c :: rest) isWordChar)
                rw [heq2, ← hb] at ha
                apply hall
                rw [← ha, List.all_eq_true]
                intro x hx
                exact List.mem_takeWhile_imp hx
            rw [tryMatch_none_of_lt (c :: rest) _ hmlt]
            show scanAux fuel rest (isWordChar c) = _
            rw [ih rest (isWordChar c) hrest, hw, if_pos rfl]
            rw [runsBy_cons_word isWordChar c rest hw, List.filter_cons]
            rw [if_neg (by simp [hallf])]
            rw [List.dropWhile_cons, if_pos hw]
        · -- not a word character: no `\b` transition from non-word state
          have hwf : isWordChar c = false := by
            cases hh : isWordChar c
            · rfl
            · exact absurd hh hw
          rw [if_neg (by simp [hwf])]
          show scanAux fuel rest (isWordChar c) = _
          rw [ih rest (isWordChar c) hrest, hwf, if_neg Bool.false_ne_true]
          rw [runsBy_cons_nonword isWordChar c rest hwf]
      | true =>
        rw [scanAux, if_pos rfl]
        by_cases hw : isWordChar c = true
        · -- inside a word run begun before the scan position: skip
          rw [if_neg (by simp [hw])]
          show scanAux fuel rest (isWordChar c) = _
          rw [ih rest (isWordChar c) hrest, hw, if_pos rfl]
          rw [List.dropWhile_cons, if_pos hw]
        · -- boundary, but the character is not `[a-z]`: zero-length run
          have hwf : isWordChar c = false := by
            cases hh : isWordChar c
            · rfl
            · exact absurd hh hw
          have haf : isLowerAlpha c = false := by
            cases hh : isLowerAlpha c
            · rfl
            · exact absurd (alpha_imp_word c hh) hw
          have hm0 : ((c :: rest).takeWhile isLowerAlpha).length = 0 := by
            rw [List.takeWhile_cons, if_neg (by simp [haf])]
            rfl
          rw [if_pos (by simp [hwf]), hm0,
            show tryMatch (c :: rest) 0 = none from rfl]
          show scanAux fuel rest (isWordChar c) = _
          rw [ih rest (isWordChar c) hrest, hwf, if_neg Bool.false_ne_true]
          rw [List.dropWhile_cons, if_neg (by simp [hwf])]
          rw [runsBy_cons_nonword isWordChar c rest hwf]

/-- C2 (amended): for every input string, `tokenize` lowercases the
input and returns exactly the maximal runs of *word characters*
(letters, digits, underscore — the regex `\b` boundary class) that
consist entirely of lowercase alphabetic characters and have length
≥ 2, in order of occurrence; a letter run adjacent to a digit or
underscore is dropped entirely, not truncated, because no word boundary
exists inside a word-character run.  On inputs without such adjacencies
this coincides with "maximal runs of lowercase alphabetic characters of
length ≥ 2"; in particular `tokenize "Hello WORLD 123"` still yields
`["hello", "world"]`. -/
theorem C2_tokenize :
    (∀ s : String, tokenize s = wordTokens s) ∧
    tokenize "Hello WORLD 123" = ["hello", "world"] := by
  constructor
  · intro s
    unfold tokenize wordTokens
    congr 1
    rw [scanAux_eq_runs s.data.length (s.data.map lowerChar) false (by simp)]
    rw [if_neg Bool.false_ne_true]
  · decide

/-- C2 counterexample: on `"abc1"` the spec's reading ("maximal runs of
lowercase alphabetic characters of length ≥ 2") extracts `["abc"]`, but
the regex `\b[a-z]{2,}\b` matches nothing — `abc` is followed by the
word character `1`, so the trailing `\b` fails at every backtracking
length.  Likewise `"ab_cd a b9c xy"` yields `["xy"]`, not
`["ab", "cd", "xy"]`. -/
theorem C2_counterexample :
    alphaTokens "abc1" = ["abc"] ∧ tokenize "abc1" = [] ∧
    alphaTokens "ab_cd a b9c xy" = ["ab", "cd", "xy"] ∧
    tokenize "ab_cd a b9c xy" = ["xy"] := by decide
